import Mathlib

/-!
Shallow embedding of the ChatBOT repository's streaming/state core:

* `formatAssistantContent` models `UIManager._formatAssistantContent`
  (src/js/ui.js, lines 142-168): a split on the protected-block regex
  `(```[\s\S]*?```|(?:\n|^)(?:\|.*?\n){2,})`, bullet normalization
  `^\s*([*-]|\d+\.)\s+` -> `• `, the newline-to-paragraph chain
  `\n\n+` -> `<br>`, `\n` -> `<br>`, `<br>` -> `\n\n`, and the final trim.
* `processStream` models `ChatApp._processStream` (src/js/app.js,
  lines 138-179): incremental UTF-8 decoding per WHATWG (stream: true),
  per-chunk split on `\n\n`, the `data: ` marker, the `[DONE]` sentinel
  (a `break` out of the per-chunk segment loop), `JSON.parse` and the
  `choices[0]?.delta?.content` extraction.
* `StateManager` operations (src/js/App.js, StateManager part):
  `addMessage`, `createNewChat`, `deleteChat`, `setActiveChat`,
  `deleteMessage`, `updateSystemPrompt`, `updateSettings`.

Strings are modelled as lists of Unicode scalar values (Lean `Char`),
which is faithful to JS strings for all Basic Multilingual Plane text;
JS `substring`/`length` count UTF-16 units, which coincide on such text.
-/

namespace ChatBot

/-! ## JavaScript character classes and string helpers -/

/-- JS `LineTerminator` set (matched by `^` under the `m` flag and excluded
from `.`): LF, CR, LS, PS. -/
def isLineTerm (c : Char) : Bool :=
  c = '\n' || c = '\r' || c.toNat = 0x2028 || c.toNat = 0x2029

/-- The JS `\s` class (also the set stripped by `String.prototype.trim`):
WhiteSpace plus LineTerminator code points. -/
def isJsWs (c : Char) : Bool :=
  c = ' ' || c = '\t' || c = '\n' || c.toNat = 0xB || c.toNat = 0xC ||
  c = '\r' || c.toNat = 0xA0 || c.toNat = 0x1680 ||
  (0x2000 ≤ c.toNat && c.toNat ≤ 0x200A) ||
  c.toNat = 0x2028 || c.toNat = 0x2029 || c.toNat = 0x202F ||
  c.toNat = 0x205F || c.toNat = 0x3000 || c.toNat = 0xFEFF

/-- Model of `String.prototype.trim`: strip `isJsWs` from both ends. -/
def trimJs (l : List Char) : List Char :=
  ((l.dropWhile isJsWs).reverse.dropWhile isJsWs).reverse

/-! ## ResponseFormatter: `_formatAssistantContent` (src/js/ui.js 142-168)

The protected-block regex is
`(```[\s\S]*?```|(?:\n|^)(?:\|.*?\n){2,})` with flag `g`; `String.split`
on a regex with one capture group returns the alternating list
`[text, match, text, match, ..., text]`.  The scanner below reproduces the
backtracking regex engine's behaviour for exactly this pattern: at each
position, first try a lazily-closed triple-backtick fence, then a table of
two or more `|`-initiated lines each terminated by `\n` and preceded by a
`\n` (or by the start of the string). -/

/-- Scan for the first closing ``` fence; returns (inner chars, rest after
the closing fence).  Models the lazy `[\s\S]*?` followed by ```. -/
def findFenceClose : List Char → List Char → Option (List Char × List Char)
  | '`' :: '`' :: '`' :: rest, acc => some (acc.reverse, rest)
  | c :: rest, acc => findFenceClose rest (c :: acc)
  | [], _ => none

/-- Try to match ```[\s\S]*?``` at the current position. -/
def fenceAt : List Char → Option (List Char × List Char)
  | '`' :: '`' :: '`' :: rest =>
    match findFenceClose rest [] with
    | some (inner, after) =>
      some ('`' :: '`' :: '`' :: (inner ++ ['`', '`', '`']), after)
    | none => none
  | _ => none

/-- Model of `.` in a JS regex without the `s` flag: any char except a
LineTerminator. Consume `.*?\n`: the shortest run of `.`-matchable chars up
to and including the next `\n`; returns (consumed incl. the `\n`, rest). -/
def dotScanNl : List Char → Option (List Char × List Char)
  | [] => none
  | '\n' :: rest => some (['\n'], rest)
  | c :: rest =>
    if c = '\r' || c.toNat = 0x2028 || c.toNat = 0x2029 then none
    else (dotScanNl rest).map (fun p => (c :: p.1, p.2))

/-- Try to match one `\|.*?\n` table line at the current position. -/
def pipeLineAt : List Char → Option (List Char × List Char)
  | '|' :: rest => (dotScanNl rest).map (fun p => ('|' :: p.1, p.2))
  | _ => none

/-- Greedily match `(?:\|.*?\n)*`: returns (count, consumed, rest). -/
def pipeLinesGo : Nat → List Char → Nat × List Char × List Char
  | 0, l => (0, [], l)
  | fuel + 1, l =>
    match pipeLineAt l with
    | none => (0, [], l)
    | some (m, rest) =>
      let r := pipeLinesGo fuel rest
      (r.1 + 1, m ++ r.2.1, r.2.2)

/-- Try to match `(?:\n|^)(?:\|.*?\n){2,}` at the current position;
`atStart` records whether the position is offset 0 (where `^` matches). -/
def tableAt (atStart : Bool) (l : List Char) : Option (List Char × List Char) :=
  match l with
  | '\n' :: rest =>
    let r := pipeLinesGo (rest.length + 1) rest
    if 2 ≤ r.1 then some ('\n' :: r.2.1, r.2.2) else none
  | _ =>
    if atStart then
      let r := pipeLinesGo (l.length + 1) l
      if 2 ≤ r.1 then some (r.2.1, r.2.2) else none
    else none

/-- Try the protected-block regex at the current position: the fence
alternative first, then the table alternative. -/
def protectedAt (atStart : Bool) (l : List Char) : Option (List Char × List Char) :=
  match fenceAt l with
  | some r => some r
  | none => tableAt atStart l

/-- The scanner driving `String.split(protectedBlockRegex)`: walk the string
left to right; at each position emit the pending text part and the match, or
advance one char.  Produces the alternating `[text, match, ..., text]` list. -/
def scanSplit : Nat → Bool → List Char → List Char → List String → List String
  | 0, _, rem, cur, acc => ((cur.reverse ++ rem).asString :: acc).reverse
  | _ + 1, _, [], cur, acc => (cur.reverse.asString :: acc).reverse
  | fuel + 1, atStart, c :: rest, cur, acc =>
    match protectedAt atStart (c :: rest) with
    | some (m, r) =>
      scanSplit fuel false r [] (m.asString :: cur.reverse.asString :: acc)
    | none => scanSplit fuel false rest (c :: cur) acc

/-- `text.split(protectedBlockRegex)` from `_formatAssistantContent`. -/
def splitParts (s : String) : List String :=
  scanSplit (s.data.length + 1) true s.data [] []

/-- Try to match `^\s*([*-]|\d+\.)\s+` at a line-start position.  On success
returns the rest after the match and whether the last consumed char is a
LineTerminator (which decides whether the next position is again a line
start). -/
def tryBullet (l : List Char) : Option (List Char × Bool) :=
  let r1 := l.dropWhile isJsWs
  let afterMarker := fun (r : List Char) =>
    let ws := r.takeWhile isJsWs
    if ws = [] then none
    else some (r.dropWhile isJsWs, isLineTerm (ws.getLastD ' '))
  match r1 with
  | '*' :: r2 => afterMarker r2
  | '-' :: r2 => afterMarker r2
  | c :: r2 =>
    if c.isDigit then
      match r2.dropWhile Char.isDigit with
      | '.' :: r4 => afterMarker r4
      | _ => none
    else none
  | [] => none

/-- Model of `replace(/^\s*([*-]|\d+\.)\s+/gm, '• ')`: scan positions left
to right; where `^` (multiline) holds, attempt the bullet match and replace
it by `• `. -/
def bulletGo : Nat → Bool → List Char → List Char
  | 0, _, l => l
  | _ + 1, _, [] => []
  | fuel + 1, atLS, c :: rest =>
    if atLS then
      match tryBullet (c :: rest) with
      | some (r, lt) => '•' :: ' ' :: bulletGo fuel lt r
      | none => c :: bulletGo fuel (isLineTerm c) rest
    else c :: bulletGo fuel (isLineTerm c) rest

def bulletReplace (l : List Char) : List Char :=
  bulletGo (l.length + 1) true l

/-- Model of `replace(/\n\n+/g, '<br>')`: each maximal run of two or more
`\n` becomes the four chars `<br>`. -/
def collapseNNGo : Nat → List Char → List Char
  | 0, l => l
  | _ + 1, [] => []
  | fuel + 1, '\n' :: '\n' :: rest =>
    '<' :: 'b' :: 'r' :: '>' :: collapseNNGo fuel (rest.dropWhile (· = '\n'))
  | fuel + 1, c :: rest => c :: collapseNNGo fuel rest

def collapseNN (l : List Char) : List Char :=
  collapseNNGo (l.length + 1) l

/-- Model of `replace(/\n/g, '<br>')`. -/
def nlToBr : List Char → List Char
  | [] => []
  | '\n' :: rest => '<' :: 'b' :: 'r' :: '>' :: nlToBr rest
  | c :: rest => c :: nlToBr rest

/-- Model of `replace(/<br>/g, '\n\n')` (leftmost, non-overlapping). -/
def brToNl : List Char → List Char
  | '<' :: 'b' :: 'r' :: '>' :: rest => '\n' :: '\n' :: brToNl rest
  | c :: rest => c :: brToNl rest
  | [] => []

/-- The per-part transform applied to non-protected (even-index) parts. -/
def formatTextPart (l : List Char) : List Char :=
  let t := trimJs (bulletReplace l)
  if t.length = 0 then t else brToNl (nlToBr (collapseNN t))

/-- `parts.map((part, index) => ...)`: empty parts become `''`, odd-index
(protected) parts pass through, even-index parts are reformatted. -/
def fmtParts : Nat → List String → List String
  | _, [] => []
  | i, p :: rest =>
    (if p = "" then ""
     else if i % 2 = 1 then p
     else (formatTextPart p.data).asString) :: fmtParts (i + 1) rest

/-- The concatenation `formattedParts.join('')` before the final trim. -/
def joinedFmt (s : String) : List Char :=
  ((fmtParts 0 (splitParts s)).map String.data).flatten

/-- Model of `UIManager._formatAssistantContent` (src/js/ui.js 142-168). -/
def formatAssistantContent (s : String) : String :=
  if s = "" then "" else (trimJs (joinedFmt s)).asString

/-! ## Newline-run normal form (for the idempotence analysis of the
text-part transform) -/

/-- Normalize newline runs: every maximal nonempty run of LF becomes
exactly two LF.  On text without a literal left angle bracket this is the
composite effect of the three replacement steps of the formatter
(paragraph runs to a break marker, single newlines to a break marker, and
break markers back to a blank line). -/
def normRunsGo : Nat → List Char → List Char
  | 0, l => l
  | _ + 1, [] => []
  | fuel + 1, '\n' :: rest => '\n' :: '\n' :: normRunsGo fuel (rest.dropWhile (· = '\n'))
  | fuel + 1, c :: rest => c :: normRunsGo fuel rest

def normRuns (l : List Char) : List Char :=
  normRunsGo (l.length + 1) l

/-- Plain prose: none of the characters that can trigger the protected
block regex (backtick, pipe), the bullet rewrite (asterisk, hyphen,
digits) or the literal break-marker rewrite (left angle bracket). -/
def PlainChars (s : String) : Prop :=
  ∀ c ∈ s.data,
    c ≠ '`' ∧ c ≠ '|' ∧ c ≠ '*' ∧ c ≠ '-' ∧ c ≠ '<' ∧ c.isDigit = false

instance (s : String) : Decidable (PlainChars s) := by
  unfold PlainChars; infer_instance

/-! ## StreamDecoder: `_processStream` (src/js/app.js 138-179)

The `TextDecoder` with `{ stream: true }` is the WHATWG incremental UTF-8
decoder, a byte-at-a-time state machine; decoding a chunk is the fold of
`utf8Step` over its bytes starting from the carried state.  `_processStream`
never calls a final `decode()` without `stream: true`, so no flush happens
at end of stream. -/

/-- State of the WHATWG UTF-8 decoder: accumulated code point, how many
continuation bytes are still needed/seen, and the valid range for the next
continuation byte. -/
structure DecState where
  codePoint : Nat
  bytesNeeded : Nat
  bytesSeen : Nat
  lowerB : Nat
  upperB : Nat
deriving DecidableEq

def initDec : DecState := ⟨0, 0, 0, 0x80, 0xBF⟩

/-- Decoder step on a byte when no sequence is pending. -/
def utf8StepFresh (b : Nat) : DecState × List Char :=
  if b ≤ 0x7F then (initDec, [Char.ofNat b])
  else if 0xC2 ≤ b && b ≤ 0xDF then
    ({ codePoint := b &&& 0x1F, bytesNeeded := 1, bytesSeen := 0,
       lowerB := 0x80, upperB := 0xBF }, [])
  else if 0xE0 ≤ b && b ≤ 0xEF then
    ({ codePoint := b &&& 0xF, bytesNeeded := 2, bytesSeen := 0,
       lowerB := if b = 0xE0 then 0xA0 else 0x80,
       upperB := if b = 0xED then 0x9F else 0xBF }, [])
  else if 0xF0 ≤ b && b ≤ 0xF4 then
    ({ codePoint := b &&& 0x7, bytesNeeded := 3, bytesSeen := 0,
       lowerB := if b = 0xF0 then 0x90 else 0x80,
       upperB := if b = 0xF4 then 0x8F else 0xBF }, [])
  else (initDec, ['�'])

/-- One step of the WHATWG UTF-8 decoder: a continuation byte outside the
expected range emits U+FFFD and is reprocessed as a fresh byte. -/
def utf8Step (st : DecState) (b : Nat) : DecState × List Char :=
  if st.bytesNeeded = 0 then utf8StepFresh b
  else if st.lowerB ≤ b && b ≤ st.upperB then
    let cp := st.codePoint * 64 + (b &&& 0x3F)
    if st.bytesSeen + 1 = st.bytesNeeded then (initDec, [Char.ofNat cp])
    else ({ codePoint := cp, bytesNeeded := st.bytesNeeded,
            bytesSeen := st.bytesSeen + 1, lowerB := 0x80, upperB := 0xBF }, [])
  else
    let r := utf8StepFresh b
    (r.1, '�' :: r.2)

/-- Run the decoder over a byte list, collecting the emitted characters. -/
def runBytes : DecState → List Nat → DecState × List Char
  | st, [] => (st, [])
  | st, b :: bs =>
    let r := utf8Step st b
    let r2 := runBytes r.1 bs
    (r2.1, r.2 ++ r2.2)

/-- A one-shot `decode(bytes)` (no streaming): run and flush — a pending
incomplete sequence at end of input becomes U+FFFD. -/
def decodeAllFlush (bs : List Nat) : String :=
  let r := runBytes initDec bs
  (r.2 ++ (if r.1.bytesNeeded = 0 then [] else ['�'])).asString

/-- Fold of `decoder.decode(value, { stream: true })` over a chunk
sequence: carried decoder state plus concatenated decoded text. -/
def decodedFold (cs : List (List Nat)) : DecState × List Char :=
  cs.foldl (fun p c =>
    let r := runBytes p.1 c
    (r.1, p.2 ++ r.2)) (initDec, [])

/-- All text the chunk-by-chunk decoder ever produced (no final flush,
exactly as in `_processStream`). -/
def decodedTotal (cs : List (List Nat)) : String :=
  (decodedFold cs).2.asString

/-- Decoder state left after the last chunk. -/
def chunksDecState (cs : List (List Nat)) : DecState :=
  (decodedFold cs).1

/-- `chunk.split('\n\n')` — leftmost, non-overlapping occurrences. -/
def splitNN : List Char → List (List Char)
  | '\n' :: '\n' :: rest => [] :: splitNN rest
  | c :: rest =>
    match splitNN rest with
    | seg :: segs => (c :: seg) :: segs
    | [] => [[c]]
  | [] => [[]]

/-! JSON values and a model of `JSON.parse` (RFC 8259 grammar).  Numbers
keep their validated lexeme; object fields keep source order and lookup
takes the last binding, like JS duplicate-key semantics.  String escapes
`\uXXXX` combine surrogate pairs; a lone surrogate escape is rejected
(JS strings can hold lone surrogates, Unicode scalar strings cannot —
irrelevant for the inputs considered here). -/

inductive Json where
  | null : Json
  | bool : Bool → Json
  | num : String → Json
  | str : String → Json
  | arr : List Json → Json
  | obj : List (String × Json) → Json

/-- JSON insignificant whitespace: space, tab, LF, CR. -/
def isJsonWs (c : Char) : Bool :=
  c = ' ' || c = '\t' || c = '\n' || c = '\r'

def skipWs (l : List Char) : List Char := l.dropWhile isJsonWs

def hexVal (c : Char) : Option Nat :=
  if '0' ≤ c && c ≤ '9' then some (c.toNat - 48)
  else if 'a' ≤ c && c ≤ 'f' then some (c.toNat - 87)
  else if 'A' ≤ c && c ≤ 'F' then some (c.toNat - 55)
  else none

/-- Map a JSON simple escape character to its value. -/
def escChar (e : Char) : Option Char :=
  if e = '"' then some '"'
  else if e = '\\' then some '\\'
  else if e = '/' then some '/'
  else if e = 'b' then some (Char.ofNat 8)
  else if e = 'f' then some (Char.ofNat 12)
  else if e = 'n' then some '\n'
  else if e = 'r' then some '\r'
  else if e = 't' then some '\t'
  else none

/-- Parse the body of a JSON string literal, after the opening quote, up to
and including the closing quote; returns (content, rest).  A `\uXXXX`
escape yields its scalar value; surrogate escape values are rejected (JS
strings are UTF-16 and `JSON.parse` accepts surrogate pairs there, but a
Unicode-scalar string model cannot hold them; no input considered here
contains a `\u` escape). -/
def parseStrBody : List Char → Option (List Char × List Char)
  | [] => none
  | '\\' :: 'u' :: h1 :: h2 :: h3 :: h4 :: r3 =>
    match hexVal h1, hexVal h2, hexVal h3, hexVal h4 with
    | some a, some b, some c2, some d =>
      let n := ((a * 16 + b) * 16 + c2) * 16 + d
      if 0xD800 ≤ n && n ≤ 0xDFFF then none
      else (parseStrBody r3).map (fun p => (Char.ofNat n :: p.1, p.2))
    | _, _, _, _ => none
  | '\\' :: e :: r2 =>
    match escChar e with
    | some ec => (parseStrBody r2).map (fun p => (ec :: p.1, p.2))
    | none => none
  | c :: rest =>
    if c = '"' then some ([], rest)
    else if c = '\\' then none
    else if c.toNat < 0x20 then none
    else (parseStrBody rest).map (fun p => (c :: p.1, p.2))

/-- `int` part of a JSON number: `0` or a nonzero digit followed by digits. -/
def parseIntPart : List Char → Option (List Char × List Char)
  | '0' :: rest => some (['0'], rest)
  | c :: rest =>
    if c.isDigit then some (c :: rest.takeWhile Char.isDigit, rest.dropWhile Char.isDigit)
    else none
  | [] => none

/-- Optional exponent part; `acc` is the lexeme so far. -/
def parseExpPart (acc : List Char) (l : List Char) : Option (List Char × List Char) :=
  match l with
  | e :: r =>
    if e = 'e' || e = 'E' then
      let sr : List Char × List Char :=
        match r with
        | '+' :: t => (['+'], t)
        | '-' :: t => (['-'], t)
        | _ => ([], r)
      let ds := sr.2.takeWhile Char.isDigit
      if ds = [] then none
      else some (acc ++ e :: (sr.1 ++ ds), sr.2.dropWhile Char.isDigit)
    else some (acc, l)
  | [] => some (acc, [])

/-- Optional fraction part, then optional exponent. -/
def parseFracExp (acc : List Char) (l : List Char) : Option (List Char × List Char) :=
  match l with
  | '.' :: r =>
    let ds := r.takeWhile Char.isDigit
    if ds = [] then none
    else parseExpPart (acc ++ '.' :: ds) (r.dropWhile Char.isDigit)
  | _ => parseExpPart acc l

/-- A JSON number lexeme: `-? int frac? exp?`. -/
def parseNumLex (l : List Char) : Option (List Char × List Char) :=
  let nl : List Char × List Char :=
    match l with
    | '-' :: r => (['-'], r)
    | _ => ([], l)
  match parseIntPart nl.2 with
  | none => none
  | some (ip, l2) => parseFracExp (nl.1 ++ ip) l2

/-- Parser mode: a value, or the member/element loop of an object/array
with the bindings accumulated so far. -/
inductive PMode where
  | val : PMode
  | members : List (String × Json) → PMode
  | elems : List Json → PMode

/-- Fuel-indexed recursive-descent JSON parser (the fuel only bounds the
recursion depth of the grammar, never the length of a string literal). -/
def parseF : Nat → PMode → List Char → Option (Json × List Char)
  | 0, _, _ => none
  | fuel + 1, .val, l =>
    match skipWs l with
    | '{' :: r =>
      match skipWs r with
      | '}' :: r2 => some (.obj [], r2)
      | r2 => parseF fuel (.members []) r2
    | '[' :: r =>
      match skipWs r with
      | ']' :: r2 => some (.arr [], r2)
      | r2 => parseF fuel (.elems []) r2
    | '"' :: r => (parseStrBody r).map (fun p => (.str p.1.asString, p.2))
    | 't' :: 'r' :: 'u' :: 'e' :: r => some (.bool true, r)
    | 'f' :: 'a' :: 'l' :: 's' :: 'e' :: r => some (.bool false, r)
    | 'n' :: 'u' :: 'l' :: 'l' :: r => some (.null, r)
    | l2 => (parseNumLex l2).map (fun p => (.num p.1.asString, p.2))
  | fuel + 1, .members acc, l =>
    match skipWs l with
    | '"' :: r =>
      (parseStrBody r).bind (fun pk =>
        match skipWs pk.2 with
        | ':' :: r3 =>
          (parseF fuel .val r3).bind (fun pv =>
            match skipWs pv.2 with
            | ',' :: r5 => parseF fuel (.members (acc ++ [(pk.1.asString, pv.1)])) r5
            | '}' :: r5 => some (.obj (acc ++ [(pk.1.asString, pv.1)]), r5)
            | _ => none)
        | _ => none)
    | _ => none
  | fuel + 1, .elems acc, l =>
    (parseF fuel .val l).bind (fun pv =>
      match skipWs pv.2 with
      | ',' :: r2 => parseF fuel (.elems (acc ++ [pv.1])) r2
      | ']' :: r2 => some (.arr (acc ++ [pv.1]), r2)
      | _ => none)

/-- Model of `JSON.parse`: parse one value and require only whitespace to
remain.  The fuel `length + 1` dominates the grammar's recursion depth for
every input. -/
def parseJson (s : String) : Option Json :=
  match parseF (s.data.length + 1) .val s.data with
  | some (v, rest) => if skipWs rest = [] then some v else none
  | none => none

/-- Last binding for a key, like JS object duplicate-key semantics. -/
def jsonLookup (fields : List (String × Json)) (k : String) : Option Json :=
  fields.foldl (fun acc p => if p.1 = k then some p.2 else acc) none

/-- `json.choices[0]?.delta?.content` inside the `try`: any step that would
throw or yield `undefined` gives `none`; per the API contract, `content`
carries a string. -/
def extractContent (j : Json) : Option String :=
  match j with
  | .obj fields =>
    match jsonLookup fields "choices" with
    | some (.arr (c0 :: _)) =>
      match c0 with
      | .obj f2 =>
        match jsonLookup f2 "delta" with
        | some (.obj f3) =>
          match jsonLookup f3 "content" with
          | some (.str s) => some s
          | _ => none
        | _ => none
      | _ => none
    | _ => none
  | _ => none

/-- The `for (const line of lines)` loop of `_processStream`: a line
starting `data: ` is processed; a trimmed payload `[DONE]` executes
`break`, abandoning the remaining lines of this chunk; a parse failure or
an empty/absent content is skipped (`console.error` only). -/
def processLines (acc : List Char) : List (List Char) → List Char
  | [] => acc
  | line :: rest =>
    match line with
    | 'd' :: 'a' :: 't' :: 'a' :: ':' :: ' ' :: data =>
      if trimJs data = "[DONE]".data then acc
      else
        match parseJson data.asString with
        | some j =>
          match extractContent j with
          | some c =>
            if c = "" then processLines acc rest
            else processLines (acc ++ c.data) rest
          | none => processLines acc rest
        | none => processLines acc rest
    | _ => processLines acc rest

/-- State of the read loop: decoder state plus the accumulated response. -/
structure PSState where
  dec : DecState
  acc : List Char
deriving DecidableEq

def initPS : PSState := ⟨initDec, []⟩

/-- One iteration of the `while (true)` read loop on one chunk: decode
with `stream: true`, split on `\n\n`, run the segment loop. -/
def stepChunk (st : PSState) (chunk : List Nat) : PSState :=
  let r := runBytes st.dec chunk
  ⟨r.1, processLines st.acc (splitNN r.2)⟩

/-- Model of `ChatApp._processStream` (src/js/app.js 138-179): fold the
chunk sequence; when the reader reports `done`, return the accumulated
response (there is no final flushing `decoder.decode()` call). -/
def processStream (chunks : List (List Nat)) : String :=
  (chunks.foldl stepChunk initPS).acc.asString

/-- UTF-8 bytes of an all-ASCII string (one byte per char). -/
def asciiBytes (s : String) : List Nat := s.data.map Char.toNat


/-! ## Inputs for the stream-recovery property (claim C5)

`frameStr s` is a complete SSE chunk carrying content `s`; `badStr` is a
chunk whose payload is not valid JSON. -/

/-- A character that may appear literally inside the JSON string of a
content frame: printable ASCII other than the quote and the backslash. -/
def SafeChar (c : Char) : Prop :=
  0x20 ≤ c.toNat ∧ c.toNat ≤ 0x7E ∧ c ≠ '"' ∧ c ≠ '\\'

instance (c : Char) : Decidable (SafeChar c) := by
  unfold SafeChar; infer_instance

/-- A nonempty content string of safe characters. -/
def SafeContent (s : String) : Prop :=
  s ≠ "" ∧ ∀ c ∈ s.data, SafeChar c

/-- The JSON frame text before the content string. -/
def preJson : List Char := "\x7b\"choices\":[\x7b\"delta\":\x7b\"content\":\"".data

/-- The JSON frame text after the content string. -/
def postJson : List Char := ['"', '}', '}', ']', '}']

/-- The JSON payload of a frame with content `t`. -/
def jsonChars (t : List Char) : List Char := preJson ++ t ++ postJson

/-- A full `data: ` line with content `t`. -/
def lineChars (t : List Char) : List Char :=
  'd' :: 'a' :: 't' :: 'a' :: ':' :: ' ' :: jsonChars t

/-- The full SSE chunk text carrying content `s`. -/
def frameStr (s : String) : String :=
  "data: \x7b\"choices\":[\x7b\"delta\":\x7b\"content\":\"" ++ s ++ "\"\x7d\x7d]\x7d\n\n"

/-- The parsed JSON value of a frame with content `t`. -/
def frameJson (t : List Char) : Json :=
  .obj [("choices", .arr [.obj [("delta", .obj [("content", .str ⟨t⟩)])]])]

/-- An SSE chunk whose data payload is malformed JSON. -/
def badStr : String := "data: \x7bmalformed\x7d\n\n"

/-- A representative complete `data: ` segment carrying content `"X"`
(without its trailing blank-line delimiter). -/
def seg10 : String :=
  "data: \x7b\"choices\":[\x7b\"delta\":\x7b\"content\":\"X\"\x7d\x7d]\x7d"

end ChatBot

/-! ## ConversationStore: `StateManager` (src/js/App.js, StateManager part)

The `chats` object is modelled as an association list of string keys in
insertion order (JS objects preserve insertion order for non-integer-like
string keys such as `chat_<ms>`); `activeChatId: null` is `none`.  The
clock (`Date.now()`) is passed explicitly to the operations that read it. -/

structure Message where
  role : String
  content : String
deriving DecidableEq

structure Chat where
  id : String
  title : String
  messages : List Message
  systemPrompt : String
deriving DecidableEq

structure Settings where
  fontSize : Int
  maxTokens : Int
  showThoughts : Bool
deriving DecidableEq

/-- A partial settings object, for the shallow merge of `updateSettings`. -/
structure SettingsPatch where
  fontSize : Option Int := none
  maxTokens : Option Int := none
  showThoughts : Option Bool := none

structure AppState where
  chats : List (String × Chat)
  activeChatId : Option String
  settings : Settings
deriving DecidableEq

def lookupChat : List (String × Chat) → String → Option Chat
  | [], _ => none
  | p :: rest, k => if p.1 = k then some p.2 else lookupChat rest k

/-- `this.state.chats[this.state.activeChatId]`. -/
def getActiveChat (st : AppState) : Option Chat :=
  match st.activeChatId with
  | some k => lookupChat st.chats k
  | none => none

/-- Assignment to an existing key keeps its position in the object. -/
def setChat (chats : List (String × Chat)) (k : String) (c : Chat) :
    List (String × Chat) :=
  chats.map (fun p => if p.1 = k then (k, c) else p)

/-- `this.state.chats[k] = c`: replace in place, or append a new key. -/
def insertChat (chats : List (String × Chat)) (k : String) (c : Chat) :
    List (String × Chat) :=
  if chats.any (fun p => p.1 = k) then setChat chats k c else chats ++ [(k, c)]

/-- JS `s.substring(0, n)`. -/
def jsSubstring (s : String) (n : Nat) : String := ⟨s.data.take n⟩

/-- Decimal digits of `n`, most significant first, prepended to `acc`
(fuel-based; `n` itself is always enough fuel). -/
def natDecAux : Nat → Nat → List Char → List Char
  | 0, n, acc => Char.ofNat (48 + n % 10) :: acc
  | f + 1, n, acc =>
    if n < 10 then Char.ofNat (48 + n % 10) :: acc
    else natDecAux f (n / 10) (Char.ofNat (48 + n % 10) :: acc)

/-- Decimal representation of a natural number. -/
def natDec (n : Nat) : String := ⟨natDecAux n n []⟩

/-- `` `chat_${Date.now()}` ``. -/
def mkChatId (now : Nat) : String := "chat_" ++ natDec now

/-- The conversation `createNewChat` allocates. -/
def defaultChat (now : Nat) : Chat :=
  ⟨mkChatId now, "Nuevo Chat", [], "Eres un asistente servicial y profesional."⟩

/-- `k.split('_')`. -/
def splitUnderscore : List Char → List (List Char)
  | [] => [[]]
  | '_' :: rest => [] :: splitUnderscore rest
  | c :: rest =>
    match splitUnderscore rest with
    | s :: ss => (c :: s) :: ss
    | [] => [[c]]

/-- Value of a digit list, most significant first. -/
def digitsVal (l : List Char) : Nat :=
  l.foldl (fun a c => a * 10 + (c.toNat - 48)) 0

/-- `parseInt(k.split('_')[1])`: the leading digit run of the segment after
the first underscore; `NaN` (no digits) is modelled as `0` — ids produced
by the store always parse. -/
def tsOf (k : String) : Nat :=
  let seg := (splitUnderscore k.data).getD 1 []
  let ds := seg.takeWhile Char.isDigit
  if ds = [] then 0 else digitsVal ds

/-- Head of `keys.sort((a, b) => parseInt(b.split('_')[1]) -
parseInt(a.split('_')[1]))`: the leftmost key with the greatest embedded
timestamp (the sort is stable, and ids embed distinct timestamps). -/
def newestKey (keys : List String) : Option String :=
  keys.foldl (fun best k =>
    match best with
    | none => some k
    | some b => if tsOf b < tsOf k then some k else some b) none

/-- JS falsiness of a chat-id value (`null`/`undefined` or `""`). -/
def jsFalsyId : Option String → Bool
  | none => true
  | some s => s = ""

/-- `StateManager.setActiveChat` (src/js/App.js 701-709). -/
def setActiveChat (st : AppState) (chatId : Option String) : AppState :=
  if jsFalsyId chatId || (lookupChat st.chats (chatId.getD "")).isNone then
    { st with activeChatId := newestKey (st.chats.map Prod.fst) }
  else { st with activeChatId := chatId }

/-- `StateManager.createNewChat` (src/js/App.js 677-682): returns the new
state and the new id. -/
def createNewChat (st : AppState) (now : Nat) : AppState × String :=
  let k := mkChatId now
  let st1 := { st with chats := insertChat st.chats k (defaultChat now) }
  (setActiveChat st1 (some k), k)

/-- `StateManager.addMessage` (src/js/App.js 656-667): returns the new
state and the returned value (`activeChat.title`, or `undefined` when
there is no active conversation). -/
def addMessage (st : AppState) (role content : String) : AppState × Option String :=
  match st.activeChatId with
  | none => (st, none)
  | some k =>
    match lookupChat st.chats k with
    | none => (st, none)
    | some ch =>
      let msgs := ch.messages ++ [⟨role, content⟩]
      let title :=
        if msgs.length = 1 ∧ role = "user" then
          jsSubstring content 30 ++ (if 30 < content.length then "..." else "")
        else ch.title
      ({ st with chats := setChat st.chats k { ch with messages := msgs, title := title } },
       some title)

/-- `StateManager.deleteMessage` (src/js/App.js 669-675). -/
def deleteMessage (st : AppState) (i : Nat) : AppState :=
  match st.activeChatId with
  | none => st
  | some k =>
    match lookupChat st.chats k with
    | none => st
    | some ch =>
      if i < ch.messages.length then
        { st with chats := setChat st.chats k { ch with messages := ch.messages.eraseIdx i } }
      else st

/-- `StateManager.deleteChat` (src/js/App.js 684-699). -/
def deleteChat (st : AppState) (k : String) (now : Nat) : AppState :=
  let wasActive := st.activeChatId = some k
  let st1 := { st with chats := st.chats.filter (fun p => p.1 ≠ k) }
  if wasActive then
    match newestKey (st1.chats.map Prod.fst) with
    | some k2 => setActiveChat st1 (some k2)
    | none => (createNewChat st1 now).1
  else st1

/-- `StateManager.updateSystemPrompt` (src/js/App.js 711-717). -/
def updateSystemPrompt (st : AppState) (p : String) : AppState :=
  match st.activeChatId with
  | none => st
  | some k =>
    match lookupChat st.chats k with
    | none => st
    | some ch => { st with chats := setChat st.chats k { ch with systemPrompt := p } }

def mergeSettings (s : Settings) (q : SettingsPatch) : Settings :=
  ⟨q.fontSize.getD s.fontSize, q.maxTokens.getD s.maxTokens,
   q.showThoughts.getD s.showThoughts⟩

/-- `StateManager.updateSettings` (src/js/App.js 719-722). -/
def updateSettings (st : AppState) (q : SettingsPatch) : AppState :=
  { st with settings := mergeSettings st.settings q }

def keysOf (st : AppState) : List String := st.chats.map Prod.fst

/-- The §3 store invariant: a non-empty store has a resolvable active id. -/
def ActiveOk (st : AppState) : Prop :=
  st.chats ≠ [] → ∃ k, st.activeChatId = some k ∧ k ∈ keysOf st

/-- Shape of the ids the store itself creates: `chat_` plus digits. -/
def isChatKey (k : String) : Bool :=
  match k.data with
  | 'c' :: 'h' :: 'a' :: 't' :: '_' :: ds => decide (ds ≠ [] ∧ ds.all Char.isDigit)
  | _ => false

/-- Well-formed key set: no duplicates, store-shaped ids. -/
def WFKeys (st : AppState) : Prop :=
  (keysOf st).Nodup ∧ ∀ k ∈ keysOf st, isChatKey k = true

/-- Demo store: one conversation holding one user turn. -/
def demoChat : Chat :=
  ⟨mkChatId 1, "hola", [⟨"user", "hola"⟩], "Eres un asistente servicial y profesional."⟩

def demoSt : AppState := ⟨[(mkChatId 1, demoChat)], some (mkChatId 1), ⟨3, 2048, false⟩⟩

/-- Demo store with two conversations, the older one active. -/
def demoSt2 : AppState :=
  ⟨[(mkChatId 1, demoChat), (mkChatId 2, defaultChat 2)], some (mkChatId 1),
   ⟨3, 2048, false⟩⟩

def emptySt : AppState := ⟨[], none, ⟨3, 2048, false⟩⟩

/-- Demo store with a single fresh (empty) conversation, active. -/
def demoSt4 : AppState :=
  ⟨[(mkChatId 2, defaultChat 2)], some (mkChatId 2), ⟨3, 2048, false⟩⟩

namespace ChatBot

/-! ## Theorems -/

/-- Characterization of `fmtParts` at an index: the part is kept verbatim
when the (offset) index is odd, reformatted when even, `""` when empty. -/
theorem fmtParts_get? (l : List String) (k i : Nat) :
    (fmtParts k l).get? i = (l.get? i).map
      (fun p => if p = "" then ""
        else if (k + i) % 2 = 1 then p
        else (formatTextPart p.data).asString) := by
  induction l generalizing k i with
  | nil => simp [fmtParts]
  | cons p rest ih =>
    cases i with
    | zero => simp [fmtParts]
    | succ j =>
      simp only [fmtParts, List.get?_cons_succ, ih rest.length, ih (k + 1) j]
      have h : k + 1 + j = k + (j + 1) := by omega
      rw [h]

/-- CLAIM C1 (counterexample).  The formatter is not idempotent: for
`x = "|a|\n|b|\n"` (a pipe-table at the end of the input), the final trim
of the first application removes the table's trailing newline, so a second
application no longer recognizes the table and rewrites its single line
break into a paragraph break. -/
theorem c1_counterexample :
    formatAssistantContent (formatAssistantContent "|a|\n|b|\n") ≠
      formatAssistantContent "|a|\n|b|\n" := by
  decide


/-! ### Trim, bullet, split and newline-run lemmas for the plain-text
idempotence analysis -/

theorem normRunsGo_nil : ∀ f, normRunsGo f [] = [] := by
  intro f; cases f <;> rfl

theorem collapseNNGo_nil : ∀ f, collapseNNGo f [] = [] := by
  intro f; cases f <;> rfl

theorem normRunsGo_cons_ne (f : Nat) (c : Char) (rest : List Char) (h : c ≠ '\n') :
    normRunsGo (f + 1) (c :: rest) = c :: normRunsGo f rest := by
  rw [normRunsGo.eq_def]
  split
  · omega
  · simp_all
  · rename_i heq; rw [List.cons.injEq] at heq; exact absurd heq.1 h
  · rename_i g cc rr h1 h2 heq; rw [List.cons.injEq] at heq
    obtain ⟨rfl, rfl⟩ := heq
    obtain rfl : g = f := by omega
    rfl

theorem collapseNNGo_cons_ne (f : Nat) (c : Char) (rest : List Char) (h : c ≠ '\n') :
    collapseNNGo (f + 1) (c :: rest) = c :: collapseNNGo f rest := by
  rw [collapseNNGo.eq_def]
  split
  · omega
  · simp_all
  · rename_i heq; rw [List.cons.injEq] at heq; exact absurd heq.1 h
  · rename_i g cc rr h1 h2 heq; rw [List.cons.injEq] at heq
    obtain ⟨rfl, rfl⟩ := heq
    obtain rfl : g = f := by omega
    rfl

theorem collapseNNGo_nl_one (f : Nat) (c : Char) (rest : List Char) (h : c ≠ '\n') :
    collapseNNGo (f + 1) ('\n' :: c :: rest) = '\n' :: collapseNNGo f (c :: rest) := by
  rw [collapseNNGo.eq_def]
  split
  · omega
  · simp_all
  · rename_i heq
    rw [List.cons.injEq, List.cons.injEq] at heq
    exact absurd heq.2.1 h
  · rename_i g cc rr h1 h2 heq; rw [List.cons.injEq] at heq
    obtain ⟨rfl, rfl⟩ := heq
    obtain rfl : g = f := by omega
    rfl

theorem nlToBr_cons_ne (c : Char) (rest : List Char) (h : c ≠ '\n') :
    nlToBr (c :: rest) = c :: nlToBr rest := by
  rw [nlToBr.eq_def]
  split
  · simp_all
  · rename_i heq; rw [List.cons.injEq] at heq; exact absurd heq.1 h
  · rename_i h1 heq; rw [List.cons.injEq] at heq
    obtain ⟨rfl, rfl⟩ := heq
    rfl

theorem brToNl_cons_ne (c : Char) (rest : List Char) (h : c ≠ '<') :
    brToNl (c :: rest) = c :: brToNl rest := by
  rw [brToNl.eq_def]
  split
  · rename_i heq
    rw [List.cons.injEq] at heq
    exact absurd heq.1 h
  · rename_i h1 heq; rw [List.cons.injEq] at heq
    obtain ⟨rfl, rfl⟩ := heq
    rfl
  · simp_all


theorem normRunsGo_ne_nil (f : Nat) (t : List Char) (h : t ≠ []) (hf : 1 ≤ f) :
    normRunsGo f t ≠ [] := by
  rcases f with _ | f
  · omega
  rcases t with _ | ⟨c, rest⟩
  · exact absurd rfl h
  by_cases hc : c = '\n'
  · subst hc
    show ('\n' :: '\n' :: normRunsGo f (rest.dropWhile (· = '\n'))) ≠ []
    simp
  · rw [normRunsGo_cons_ne f c rest hc]; simp

theorem normRunsGo_subset : ∀ (f : Nat) (t : List Char) (c : Char),
    c ∈ normRunsGo f t → c ∈ t ∨ c = '\n' := by
  intro f
  induction f with
  | zero => intro t c hc; exact Or.inl hc
  | succ f ih =>
    intro t c hc
    rcases t with _ | ⟨a, rest⟩
    · rw [normRunsGo_nil] at hc; exact absurd hc (List.not_mem_nil c)
    by_cases ha : a = '\n'
    · subst ha
      have hc' : c ∈ '\n' :: '\n' :: normRunsGo f (rest.dropWhile (· = '\n')) := hc
      rcases List.mem_cons.mp hc' with h1 | h1
      · exact Or.inr h1
      rcases List.mem_cons.mp h1 with h2 | h2
      · exact Or.inr h2
      rcases ih _ c h2 with h3 | h3
      · exact Or.inl (List.mem_cons_of_mem _ ((List.dropWhile_sublist _).subset h3))
      · exact Or.inr h3
    · rw [normRunsGo_cons_ne f a rest ha] at hc
      rcases List.mem_cons.mp hc with h1 | h1
      · exact Or.inl (h1 ▸ List.mem_cons_self a rest)
      rcases ih _ c h1 with h3 | h3
      · exact Or.inl (List.mem_cons_of_mem _ h3)
      · exact Or.inr h3

theorem getLast?_cons_ne (c : Char) (l : List Char) (h : l ≠ []) :
    (c :: l).getLast? = l.getLast? := by
  rcases l with _ | ⟨d, rest⟩
  · exact absurd rfl h
  · exact List.getLast?_cons_cons

theorem head?_dropWhile_false (p : Char → Bool) :
    ∀ (l : List Char) (c : Char), (l.dropWhile p).head? = some c → p c = false := by
  intro l
  induction l with
  | nil => intro c hc; simp [List.dropWhile] at hc
  | cons a rest ih =>
    intro c hc
    by_cases hp : p a
    · rw [List.dropWhile_cons, if_pos hp] at hc; exact ih c hc
    · rw [List.dropWhile_cons, if_neg hp] at hc
      rw [List.head?_cons, Option.some.injEq] at hc
      subst hc
      exact Bool.eq_false_iff.mpr hp

theorem getLast?_dropWhile (p : Char → Bool) (l : List Char)
    (h : l.dropWhile p ≠ []) : (l.dropWhile p).getLast? = l.getLast? := by
  induction l with
  | nil => simp [List.dropWhile] at h
  | cons c rest ih =>
    by_cases hp : p c
    · rw [List.dropWhile_cons, if_pos hp] at h ⊢
      rw [ih h]
      have hr : rest ≠ [] := by
        intro h0; subst h0; simp [List.dropWhile] at h
      exact (getLast?_cons_ne c rest hr).symm
    · rw [List.dropWhile_cons, if_neg hp]

theorem dropWhile_eq_self_of_head (p : Char → Bool) (l : List Char)
    (h : ∀ c, l.head? = some c → p c = false) : l.dropWhile p = l := by
  rcases l with _ | ⟨c, rest⟩
  · rfl
  · rw [List.dropWhile_cons, h c rfl]; simp

theorem trimJs_fixed (u : List Char)
    (h1 : ∀ c, u.head? = some c → isJsWs c = false)
    (h2 : ∀ c, u.getLast? = some c → isJsWs c = false) :
    trimJs u = u := by
  unfold trimJs
  rw [dropWhile_eq_self_of_head isJsWs u h1]
  have e2 : u.reverse.dropWhile isJsWs = u.reverse := by
    apply dropWhile_eq_self_of_head
    intro c hc
    rw [List.head?_reverse] at hc
    exact h2 c hc
  rw [e2, List.reverse_reverse]

theorem trimJs_head?_false (l : List Char) (c : Char)
    (h : (trimJs l).head? = some c) : isJsWs c = false := by
  unfold trimJs at h
  rw [List.head?_reverse] at h
  have hne : (l.dropWhile isJsWs).reverse.dropWhile isJsWs ≠ [] := by
    intro h0; rw [h0] at h; simp at h
  rw [getLast?_dropWhile _ _ hne, List.getLast?_reverse] at h
  exact head?_dropWhile_false isJsWs l c h

theorem trimJs_getLast?_false (l : List Char) (c : Char)
    (h : (trimJs l).getLast? = some c) : isJsWs c = false := by
  unfold trimJs at h
  rw [List.getLast?_reverse] at h
  exact head?_dropWhile_false isJsWs _ c h

theorem trimJs_subset (l : List Char) : ∀ c ∈ trimJs l, c ∈ l := by
  intro c hc
  unfold trimJs at hc
  rw [List.mem_reverse] at hc
  have h1 := (List.dropWhile_sublist isJsWs).subset hc
  rw [List.mem_reverse] at h1
  exact (List.dropWhile_sublist isJsWs).subset h1

theorem chain_eq_normRuns : ∀ (fuel : Nat) (t : List Char), t.length ≤ fuel →
    (∀ c ∈ t, c ≠ '<') →
    brToNl (nlToBr (collapseNNGo fuel t)) = normRunsGo fuel t := by
  intro fuel
  induction fuel with
  | zero =>
    intro t hlen _
    have ht : t = [] := List.length_eq_zero.mp (Nat.le_zero.mp hlen)
    subst ht; rfl
  | succ f ih =>
    intro t hlen hlt
    rcases t with _ | ⟨c, rest⟩
    · rfl
    by_cases hc : c = '\n'
    · subst hc
      rcases rest with _ | ⟨c2, rest2⟩
      · have e1 : collapseNNGo (f + 1) ['\n'] = ['\n'] := by
          show '\n' :: collapseNNGo f [] = ['\n']
          rw [collapseNNGo_nil]
        have e2 : normRunsGo (f + 1) ['\n'] = ['\n', '\n'] := by
          show '\n' :: '\n' :: normRunsGo f (List.dropWhile (· = '\n') []) = _
          rw [List.dropWhile_nil, normRunsGo_nil]
        rw [e1, e2]; rfl
      by_cases hc2 : c2 = '\n'
      · subst hc2
        have e1 : collapseNNGo (f + 1) ('\n' :: '\n' :: rest2) =
            '<' :: 'b' :: 'r' :: '>' :: collapseNNGo f (rest2.dropWhile (· = '\n')) := rfl
        have e2 : normRunsGo (f + 1) ('\n' :: '\n' :: rest2) =
            '\n' :: '\n' :: normRunsGo f (rest2.dropWhile (· = '\n')) := by
          show '\n' :: '\n' :: normRunsGo f (List.dropWhile (· = '\n') ('\n' :: rest2)) = _
          rw [List.dropWhile_cons]
          simp
        rw [e1, e2]
        rw [show nlToBr ('<' :: 'b' :: 'r' :: '>' ::
              collapseNNGo f (rest2.dropWhile (· = '\n'))) =
            '<' :: 'b' :: 'r' :: '>' ::
              nlToBr (collapseNNGo f (rest2.dropWhile (· = '\n'))) from rfl]
        rw [show brToNl ('<' :: 'b' :: 'r' :: '>' ::
              nlToBr (collapseNNGo f (rest2.dropWhile (· = '\n')))) =
            '\n' :: '\n' ::
              brToNl (nlToBr (collapseNNGo f (rest2.dropWhile (· = '\n')))) from rfl]
        have hsub : ∀ x ∈ rest2.dropWhile (· = '\n'), x ≠ '<' := fun x hx =>
          hlt x (List.mem_cons_of_mem _ (List.mem_cons_of_mem _
            ((List.dropWhile_sublist _).subset hx)))
        have hlen' : (rest2.dropWhile (· = '\n')).length ≤ f := by
          have h1 := (List.dropWhile_sublist (l := rest2) (· = '\n')).length_le
          simp only [List.length_cons] at hlen
          omega
        rw [ih _ hlen' hsub]
      · have e1 : collapseNNGo (f + 1) ('\n' :: c2 :: rest2) =
            '\n' :: collapseNNGo f (c2 :: rest2) := collapseNNGo_nl_one f c2 rest2 hc2
        have e2 : normRunsGo (f + 1) ('\n' :: c2 :: rest2) =
            '\n' :: '\n' :: normRunsGo f (c2 :: rest2) := by
          show '\n' :: '\n' :: normRunsGo f (List.dropWhile (· = '\n') (c2 :: rest2)) = _
          rw [List.dropWhile_cons]
          simp [hc2]
        rw [e1, e2]
        rw [show nlToBr ('\n' :: collapseNNGo f (c2 :: rest2)) =
            '<' :: 'b' :: 'r' :: '>' :: nlToBr (collapseNNGo f (c2 :: rest2)) from rfl]
        rw [show brToNl ('<' :: 'b' :: 'r' :: '>' :: nlToBr (collapseNNGo f (c2 :: rest2))) =
            '\n' :: '\n' :: brToNl (nlToBr (collapseNNGo f (c2 :: rest2))) from rfl]
        have hsub : ∀ x ∈ c2 :: rest2, x ≠ '<' := fun x hx =>
          hlt x (List.mem_cons_of_mem _ hx)
        have hlen' : (c2 :: rest2).length ≤ f := by
          simp only [List.length_cons] at hlen ⊢
          omega
        rw [ih _ hlen' hsub]
    · have e1 : collapseNNGo (f + 1) (c :: rest) = c :: collapseNNGo f rest :=
        collapseNNGo_cons_ne f c rest hc
      have e2 : normRunsGo (f + 1) (c :: rest) = c :: normRunsGo f rest :=
        normRunsGo_cons_ne f c rest hc
      rw [e1, e2, nlToBr_cons_ne c _ hc,
        brToNl_cons_ne c _ (hlt c (List.mem_cons_self _ _))]
      have hlen' : rest.length ≤ f := by
        simp only [List.length_cons] at hlen; omega
      rw [ih rest hlen' (fun x hx => hlt x (List.mem_cons_of_mem _ hx))]

theorem chain_eq_top (t : List Char) (hlt : ∀ c ∈ t, c ≠ '<') :
    brToNl (nlToBr (collapseNN t)) = normRuns t := by
  unfold collapseNN normRuns
  exact chain_eq_normRuns (t.length + 1) t (Nat.le_succ _) hlt

theorem normRunsGo_head_ne (f : Nat) (e : Char) (r : List Char) (he : e ≠ '\n') :
    ∃ u, normRunsGo f (e :: r) = e :: u := by
  rcases f with _ | f
  · exact ⟨r, rfl⟩
  · exact ⟨normRunsGo f r, normRunsGo_cons_ne f e r he⟩

theorem normRunsGo_getLast? : ∀ (f : Nat) (t : List Char) (d : Char), t.length ≤ f →
    t.getLast? = some d → d ≠ '\n' → (normRunsGo f t).getLast? = some d := by
  intro f
  induction f with
  | zero =>
    intro t d hlen hlast _
    have ht : t = [] := List.length_eq_zero.mp (Nat.le_zero.mp hlen)
    subst ht; simp at hlast
  | succ f ih =>
    intro t d hlen hlast hd
    rcases t with _ | ⟨c, rest⟩
    · simp at hlast
    by_cases hc : c = '\n'
    · subst hc
      have hrest : rest ≠ [] := by
        rintro rfl
        rw [List.getLast?_singleton, Option.some.injEq] at hlast
        exact hd hlast.symm
      have hl2 : rest.getLast? = some d := by
        rw [← getLast?_cons_ne '\n' rest hrest]; exact hlast
      have hr'ne : rest.dropWhile (· = '\n') ≠ [] := by
        intro h0
        have hall := List.dropWhile_eq_nil_iff.mp h0
        have hdm := List.mem_of_mem_getLast? hl2
        have := hall d hdm
        simp at this
        exact hd this
      have hl3 : (rest.dropWhile (· = '\n')).getLast? = some d := by
        rw [getLast?_dropWhile _ _ hr'ne]; exact hl2
      have hflen : rest.length ≤ f := by
        simp only [List.length_cons] at hlen; omega
      have hfge : 1 ≤ f := by
        have : 1 ≤ rest.length := by
          rcases rest with _ | _
          · exact absurd rfl hrest
          · simp
        omega
      have hne : normRunsGo f (rest.dropWhile (· = '\n')) ≠ [] :=
        normRunsGo_ne_nil f _ hr'ne hfge
      show ('\n' :: '\n' :: normRunsGo f (rest.dropWhile (· = '\n'))).getLast? = some d
      rw [getLast?_cons_ne _ _ (by simp), getLast?_cons_ne _ _ hne]
      exact ih _ d (le_trans (List.dropWhile_sublist _).length_le hflen) hl3 hd
    · rw [normRunsGo_cons_ne f c rest hc]
      rcases hrest : rest with _ | ⟨c2, rest2⟩
      · rw [hrest] at hlast
        rw [normRunsGo_nil]
        exact hlast
      · rw [← hrest]
        have hrne : rest ≠ [] := by rw [hrest]; simp
        have hl2 : rest.getLast? = some d := by
          rw [← getLast?_cons_ne c rest hrne]; exact hlast
        have hflen : rest.length ≤ f := by
          simp only [List.length_cons] at hlen; omega
        have hfge : 1 ≤ f := by
          have : 1 ≤ rest.length := by rw [hrest]; simp
          omega
        rw [getLast?_cons_ne _ _ (normRunsGo_ne_nil f rest hrne hfge)]
        exact ih rest d hflen hl2 hd

theorem normRunsGo_idem : ∀ (f : Nat) (t : List Char) (F : Nat), t.length ≤ f →
    (normRunsGo f t).length ≤ F →
    normRunsGo F (normRunsGo f t) = normRunsGo f t := by
  intro f
  induction f with
  | zero =>
    intro t F hlen _
    have ht : t = [] := List.length_eq_zero.mp (Nat.le_zero.mp hlen)
    subst ht
    rw [normRunsGo_nil, normRunsGo_nil]
  | succ f ih =>
    intro t F hlen hF
    rcases t with _ | ⟨c, rest⟩
    · rw [normRunsGo_nil, normRunsGo_nil]
    by_cases hc : c = '\n'
    · subst hc
      have e : normRunsGo (f + 1) ('\n' :: rest) =
          '\n' :: '\n' :: normRunsGo f (rest.dropWhile (· = '\n')) := rfl
      rw [e] at hF ⊢
      have hw : (normRunsGo f (rest.dropWhile (· = '\n'))).dropWhile (· = '\n') =
          normRunsGo f (rest.dropWhile (· = '\n')) := by
        apply dropWhile_eq_self_of_head
        intro x hx
        rcases hw0 : rest.dropWhile (· = '\n') with _ | ⟨e1, r1⟩
        · rw [hw0, normRunsGo_nil] at hx; simp at hx
        · have he1 : e1 ≠ '\n' := by
            have h1 := head?_dropWhile_false (fun x => decide (x = '\n')) rest e1
              (by rw [hw0]; rfl)
            simpa using h1
          obtain ⟨u, hu⟩ := normRunsGo_head_ne f e1 r1 he1
          rw [hw0, hu] at hx
          rw [List.head?_cons, Option.some.injEq] at hx
          subst hx
          simp [he1]
      rcases F with _ | F'
      · simp at hF
      have e2 : normRunsGo (F' + 1) ('\n' :: ('\n' ::
          normRunsGo f (rest.dropWhile (· = '\n')))) =
          '\n' :: '\n' :: normRunsGo F' (('\n' ::
            normRunsGo f (rest.dropWhile (· = '\n'))).dropWhile (· = '\n')) := rfl
      rw [e2]
      rw [show ('\n' :: normRunsGo f (rest.dropWhile (· = '\n'))).dropWhile (· = '\n') =
          (normRunsGo f (rest.dropWhile (· = '\n'))).dropWhile (· = '\n') from by
        rw [List.dropWhile_cons]; simp]
      rw [hw]
      have hlen' : (rest.dropWhile (· = '\n')).length ≤ f := by
        have h1 := (List.dropWhile_sublist (l := rest) (· = '\n')).length_le
        simp only [List.length_cons] at hlen
        omega
      have hF' : (normRunsGo f (rest.dropWhile (· = '\n'))).length ≤ F' := by
        simp only [List.length_cons] at hF
        omega
      rw [ih _ F' hlen' hF']
    · have e : normRunsGo (f + 1) (c :: rest) = c :: normRunsGo f rest :=
        normRunsGo_cons_ne f c rest hc
      rw [e] at hF ⊢
      rcases F with _ | F'
      · simp at hF
      rw [normRunsGo_cons_ne F' c _ hc]
      have hlen' : rest.length ≤ f := by
        simp only [List.length_cons] at hlen; omega
      have hF' : (normRunsGo f rest).length ≤ F' := by
        simp only [List.length_cons] at hF; omega
      rw [ih rest F' hlen' hF']

theorem normRuns_idem (t : List Char) : normRuns (normRuns t) = normRuns t := by
  unfold normRuns
  exact normRunsGo_idem (t.length + 1) t _ (Nat.le_succ _) (Nat.le_succ _)

theorem trimJs_normRuns (l : List Char) (ht : trimJs l ≠ []) :
    trimJs (normRuns (trimJs l)) = normRuns (trimJs l) := by
  obtain ⟨c, rest, hcr⟩ := List.exists_cons_of_ne_nil ht
  have hcw : isJsWs c = false := trimJs_head?_false l c (by rw [hcr]; rfl)
  have hc : c ≠ '\n' := by
    rintro rfl; simp [isJsWs] at hcw
  obtain ⟨d, hd⟩ : ∃ d, (trimJs l).getLast? = some d := by
    rcases h0 : (trimJs l).getLast? with _ | d
    · rw [List.getLast?_eq_none_iff] at h0; exact absurd h0 ht
    · exact ⟨d, rfl⟩
  have hdw : isJsWs d = false := trimJs_getLast?_false l d hd
  have hdn : d ≠ '\n' := by
    rintro rfl; simp [isJsWs] at hdw
  apply trimJs_fixed
  · intro c' hc'
    have hh : (normRuns (trimJs l)).head? = some c := by
      rw [hcr]
      show (normRunsGo ((c :: rest).length + 1) (c :: rest)).head? = some c
      obtain ⟨u, hu⟩ := normRunsGo_head_ne ((c :: rest).length + 1) c rest hc
      rw [hu]; rfl
    rw [hh, Option.some.injEq] at hc'
    subst hc'; exact hcw
  · intro d' hd'
    have hg : (normRuns (trimJs l)).getLast? = some d :=
      normRunsGo_getLast? _ (trimJs l) d (Nat.le_succ _) hd hdn
    rw [hg, Option.some.injEq] at hd'
    subst hd'; exact hdw

theorem tryBullet_none (l : List Char)
    (h : ∀ c ∈ l, c ≠ '*' ∧ c ≠ '-' ∧ c.isDigit = false) :
    tryBullet l = none := by
  have hsub : ∀ c ∈ l.dropWhile isJsWs, c ∈ l := fun c hc =>
    (List.dropWhile_sublist isJsWs).subset hc
  simp only [tryBullet]
  rcases hd : l.dropWhile isJsWs with _ | ⟨c, r2⟩
  · rfl
  have hc := h c (hsub c (hd ▸ List.mem_cons_self c r2))
  split
  · rename_i heq; rw [List.cons.injEq] at heq; exact absurd heq.1 hc.1
  · rename_i heq; rw [List.cons.injEq] at heq; exact absurd heq.1 hc.2.1
  · rename_i cc rr h1 h2 heq
    rw [List.cons.injEq] at heq
    obtain ⟨rfl, rfl⟩ := heq
    simp [hc.2.2]
  · rfl

theorem bulletGo_id : ∀ (f : Nat) (b : Bool) (l : List Char),
    (∀ c ∈ l, c ≠ '*' ∧ c ≠ '-' ∧ c.isDigit = false) → bulletGo f b l = l := by
  intro f
  induction f with
  | zero => intro b l _; rfl
  | succ f ih =>
    intro b l h
    rcases l with _ | ⟨c, rest⟩
    · rfl
    have htb : tryBullet (c :: rest) = none := tryBullet_none _ h
    have ihr := ih (isLineTerm c) rest (fun x hx => h x (List.mem_cons_of_mem _ hx))
    cases b
    · show c :: bulletGo f (isLineTerm c) rest = c :: rest
      rw [ihr]
    · show (match tryBullet (c :: rest) with
        | some (r, lt) => '•' :: ' ' :: bulletGo f lt r
        | none => c :: bulletGo f (isLineTerm c) rest) = c :: rest
      rw [htb, ihr]

theorem bulletReplace_id (l : List Char)
    (h : ∀ c ∈ l, c ≠ '*' ∧ c ≠ '-' ∧ c.isDigit = false) :
    bulletReplace l = l :=
  bulletGo_id (l.length + 1) true l h

theorem fenceAt_none (c : Char) (rest : List Char) (h : c ≠ '`') :
    fenceAt (c :: rest) = none := by
  rw [fenceAt.eq_def]
  split
  · rename_i heq; rw [List.cons.injEq] at heq; exact absurd heq.1 h
  · rfl

theorem pipeLineAt_none (l : List Char) (h : ∀ c ∈ l, c ≠ '|') :
    pipeLineAt l = none := by
  rcases l with _ | ⟨c, rest⟩
  · rfl
  rw [pipeLineAt.eq_def]
  split
  · rename_i heq; rw [List.cons.injEq] at heq
    exact absurd heq.1 (h c (List.mem_cons_self c rest))
  · rfl

theorem pipeLinesGo_none (fuel : Nat) (l : List Char) (h : pipeLineAt l = none) :
    pipeLinesGo fuel l = (0, [], l) := by
  cases fuel with
  | zero => rfl
  | succ f =>
    show (match pipeLineAt l with
      | none => (0, [], l)
      | some (m, rest) =>
        let r := pipeLinesGo f rest
        (r.1 + 1, m ++ r.2.1, r.2.2)) = (0, [], l)
    rw [h]

theorem tableAt_none (b : Bool) (l : List Char) (h : ∀ c ∈ l, c ≠ '|') :
    tableAt b l = none := by
  rw [tableAt.eq_def]
  split
  · rename_i rest0
    have hr : ∀ c ∈ rest0, c ≠ '|' := fun c hc => h c (List.mem_cons_of_mem _ hc)
    rw [pipeLinesGo_none _ _ (pipeLineAt_none rest0 hr)]
    simp
  · rw [pipeLinesGo_none _ _ (pipeLineAt_none l h)]
    cases b <;> simp

theorem protectedAt_none (b : Bool) (c : Char) (rest : List Char)
    (h : ∀ x ∈ c :: rest, x ≠ '`' ∧ x ≠ '|') :
    protectedAt b (c :: rest) = none := by
  unfold protectedAt
  rw [fenceAt_none c rest (h c (List.mem_cons_self c rest)).1]
  exact tableAt_none b _ (fun x hx => (h x hx).2)

theorem scanSplit_plain : ∀ (fuel : Nat) (b : Bool) (rem cur : List Char)
    (acc : List String), (∀ c ∈ rem, c ≠ '`' ∧ c ≠ '|') →
    scanSplit fuel b rem cur acc = ((cur.reverse ++ rem).asString :: acc).reverse := by
  intro fuel
  induction fuel with
  | zero => intro b rem cur acc _; rfl
  | succ f ih =>
    intro b rem cur acc h
    rcases rem with _ | ⟨c, rest⟩
    · show (cur.reverse.asString :: acc).reverse = _
      rw [List.append_nil]
    · have hpn : protectedAt b (c :: rest) = none := protectedAt_none b c rest h
      show (match protectedAt b (c :: rest) with
        | some (m, r) => scanSplit f false r [] (m.asString :: cur.reverse.asString :: acc)
        | none => scanSplit f false rest (c :: cur) acc) = _
      rw [hpn]
      show scanSplit f false rest (c :: cur) acc = _
      rw [ih false rest (c :: cur) acc (fun x hx => h x (List.mem_cons_of_mem _ hx))]
      rw [show (c :: cur).reverse ++ rest = cur.reverse ++ (c :: rest) from by
        rw [List.reverse_cons, List.append_assoc, List.singleton_append]]

theorem splitParts_plain (s : String) (h : ∀ c ∈ s.data, c ≠ '`' ∧ c ≠ '|') :
    splitParts s = [s] := by
  unfold splitParts
  rw [scanSplit_plain (s.data.length + 1) true s.data [] [] h]
  rfl

theorem format_single (s : String) (hs : s ≠ "") (hsp : splitParts s = [s]) :
    formatAssistantContent s = (trimJs (formatTextPart s.data)).asString := by
  unfold formatAssistantContent joinedFmt
  rw [if_neg hs, hsp]
  have h1 : fmtParts 0 [s] = [(formatTextPart s.data).asString] := by
    simp [fmtParts, hs]
  rw [h1]
  simp [List.asString]

theorem formatTextPart_plain (l : List Char) (hb : bulletReplace l = l)
    (hlt : ∀ c ∈ trimJs l, c ≠ '<') (ht : trimJs l ≠ []) :
    formatTextPart l = normRuns (trimJs l) := by
  simp only [formatTextPart, hb]
  rw [if_neg (by simpa [List.length_eq_zero] using ht)]
  exact chain_eq_top _ hlt

/-- CLAIM C1 (amended).  The formatter is idempotent on plain prose: on
any input free of backtick, pipe, asterisk, hyphen, left angle bracket
and digits, it reduces to trimming plus normalizing every newline run to
a blank line, and re-application is the identity on its output.  (It is
not idempotent in general: besides the trailing-table counterexample,
rewriting a literal break marker can create new pipe lines adjacent to a
table.) -/
theorem c1_amended_plain_idempotent (s : String) (h : PlainChars s) :
    formatAssistantContent (formatAssistantContent s) =
      formatAssistantContent s := by
  by_cases hs : s = ""
  · subst hs; rfl
  have hsp : splitParts s = [s] :=
    splitParts_plain s (fun c hc => ⟨(h c hc).1, (h c hc).2.1⟩)
  have hbul : bulletReplace s.data = s.data :=
    bulletReplace_id _ (fun c hc =>
      ⟨(h c hc).2.2.1, (h c hc).2.2.2.1, (h c hc).2.2.2.2.2⟩)
  by_cases ht : trimJs s.data = []
  · have hf0 : formatTextPart s.data = [] := by
      simp only [formatTextPart, hbul, ht]
      rfl
    have hfs : formatAssistantContent s = "" := by
      rw [format_single s hs hsp, hf0]
      rfl
    rw [hfs]
    rfl
  · have hlt : ∀ c ∈ trimJs s.data, c ≠ '<' := fun c hc =>
      (h c (trimJs_subset _ c hc)).2.2.2.2.1
    have hfmt : formatAssistantContent s = (normRuns (trimJs s.data)).asString := by
      rw [format_single s hs hsp, formatTextPart_plain s.data hbul hlt ht,
        trimJs_normRuns s.data ht]
    have hune : normRuns (trimJs s.data) ≠ [] := by
      unfold normRuns
      exact normRunsGo_ne_nil _ _ ht (by omega)
    have hus : (normRuns (trimJs s.data)).asString ≠ "" := by
      intro h0
      rw [show ("" : String) = List.asString [] from rfl] at h0
      exact hune (congrArg String.data h0)
    have hsub2 : ∀ c ∈ normRuns (trimJs s.data), c ∈ s.data ∨ c = '\n' := by
      intro c hc
      rcases normRunsGo_subset _ _ c hc with h' | h'
      · exact Or.inl (trimJs_subset _ c h')
      · exact Or.inr h'
    have hplain2 : PlainChars (normRuns (trimJs s.data)).asString := by
      intro c hc
      rcases hsub2 c hc with h' | h'
      · exact h c h'
      · subst h'
        refine ⟨by decide, by decide, by decide, by decide, by decide, by decide⟩
    have hsp2 : splitParts (normRuns (trimJs s.data)).asString =
        [(normRuns (trimJs s.data)).asString] :=
      splitParts_plain _ (fun c hc => ⟨(hplain2 c hc).1, (hplain2 c hc).2.1⟩)
    have hbul2 : bulletReplace (normRuns (trimJs s.data)) = normRuns (trimJs s.data) :=
      bulletReplace_id _ (fun c hc =>
        ⟨(hplain2 c hc).2.2.1, (hplain2 c hc).2.2.2.1, (hplain2 c hc).2.2.2.2.2⟩)
    have htr2 : trimJs (normRuns (trimJs s.data)) = normRuns (trimJs s.data) :=
      trimJs_normRuns s.data ht
    have hu2ne : trimJs (normRuns (trimJs s.data)) ≠ [] := by
      rw [htr2]; exact hune
    have hlt2 : ∀ c ∈ trimJs (normRuns (trimJs s.data)), c ≠ '<' := by
      intro c hc
      rw [htr2] at hc
      rcases hsub2 c hc with h' | h'
      · exact (h c h').2.2.2.2.1
      · subst h'; decide
    have hfp2 : formatTextPart (normRuns (trimJs s.data)) = normRuns (trimJs s.data) := by
      rw [formatTextPart_plain _ hbul2 hlt2 hu2ne, htr2, normRuns_idem]
    have hfmt2 : formatAssistantContent (normRuns (trimJs s.data)).asString =
        (normRuns (trimJs s.data)).asString := by
      have h12 := format_single _ hus hsp2
      rw [h12]
      show (trimJs (formatTextPart (normRuns (trimJs s.data)))).asString = _
      rw [hfp2, htr2]
    rw [hfmt, hfmt2]

/-- Witness for C1 (amended): a three-line plain paragraph. -/
theorem c1_amended_witness :
    formatAssistantContent (formatAssistantContent
        "Hello, how\n\n\nare you?\nFine, thanks.") =
      formatAssistantContent "Hello, how\n\n\nare you?\nFine, thanks." :=
  c1_amended_plain_idempotent "Hello, how\n\n\nare you?\nFine, thanks." (by decide)

/-- CLAIM C2 (counterexample).  A protected table block at the end of the
input does not appear byte-identically in the output: the final trim strips
its trailing newline.  Here `"\n|a|\n|b|\n"` is the (odd-index) protected
block of the split, yet it is not an infix of the formatted output. -/
theorem c2_counterexample :
    splitParts "x\n|a|\n|b|\n" = ["x", "\n|a|\n|b|\n", ""] ∧
    formatAssistantContent "x\n|a|\n|b|\n" = "x\n|a|\n|b|" ∧
    ¬ ("\n|a|\n|b|\n" : String).data <:+:
        (formatAssistantContent "x\n|a|\n|b|\n").data :=
  ⟨by decide, by decide, by decide⟩

/-- CLAIM C2 (amended).  Every protected block (an odd-index part of the
regex split) appears byte-identically in the concatenation of the formatted
parts; only the final outer trim can remove whitespace at the two ends of
the output (as the counterexample shows for a boundary table block). -/
theorem c2_amended_protected_infix (s : String) (i : Nat) (p : String)
    (hi : i % 2 = 1) (hp : (splitParts s).get? i = some p) :
    p.data <:+: joinedFmt s := by
  have h1 : (fmtParts 0 (splitParts s)).get? i = some p := by
    rw [fmtParts_get?, hp]
    simp only [Option.map_some, Nat.zero_add, hi, if_true]
    by_cases hp0 : p = "" <;> simp [hp0]
  have h2 : p ∈ fmtParts 0 (splitParts s) := List.get?_mem h1
  have h3 : p.data ∈ (fmtParts 0 (splitParts s)).map String.data :=
    List.mem_map_of_mem String.data h2
  exact List.infix_of_mem_flatten h3

/-- Witness for C2 (amended): the interior table block of
`"x\n|a|\n|b|\ny"` is preserved in the joined formatted parts. -/
theorem c2_amended_witness :
    ("\n|a|\n|b|\n" : String).data <:+: joinedFmt "x\n|a|\n|b|\ny" :=
  c2_amended_protected_infix "x\n|a|\n|b|\ny" 1 "\n|a|\n|b|\n"
    (by decide) (by decide)


/-- Decoding the concatenation of two byte lists composes the decoder runs:
the byte-at-a-time state machine is insensitive to the cut point. -/
theorem runBytes_append (st : DecState) (l1 l2 : List Nat) :
    runBytes st (l1 ++ l2) =
      ((runBytes (runBytes st l1).1 l2).1,
       (runBytes st l1).2 ++ (runBytes (runBytes st l1).1 l2).2) := by
  induction l1 generalizing st with
  | nil => simp [runBytes]
  | cons b bs ih => simp [runBytes, ih, List.append_assoc]

/-- The chunkwise decode fold equals one decoder run over the flattened
byte stream. -/
theorem decodedFold_go (cs : List (List Nat)) (st : DecState) (acc : List Char) :
    cs.foldl (fun p c =>
        let r := runBytes p.1 c
        (r.1, p.2 ++ r.2)) (st, acc) =
      ((runBytes st cs.flatten).1, acc ++ (runBytes st cs.flatten).2) := by
  induction cs generalizing st acc with
  | nil => simp [runBytes]
  | cons c cs ih => simp [List.foldl_cons, ih, runBytes_append, List.append_assoc]

/-- CLAIM C3 (counterexample).  `_processStream` performs no final
`decoder.decode()` flush: with the single chunk `[0xC3]` (the first byte of
a two-byte character, pending at end of stream) the chunk-by-chunk decoder
emits nothing, while decoding the concatenated bytes yields U+FFFD. -/
theorem c3_counterexample :
    decodedTotal [[0xC3]] ≠ decodeAllFlush (List.flatten [[0xC3]]) ∧
    decodedTotal [[0xC3]] = "" ∧ decodeAllFlush (List.flatten [[0xC3]]) = "�" :=
  ⟨by decide, rfl, rfl⟩

/-- CLAIM C3 (amended).  Mid-stream chunk boundaries inside multi-byte
characters are handled by the stateful decoder, but nothing is flushed at
completion; consequently the decoded text equals the text decoded from the
concatenated bytes exactly when no partial sequence is pending at end of
stream. -/
theorem c3_amended_no_pending (cs : List (List Nat))
    (h : (chunksDecState cs).bytesNeeded = 0) :
    decodedTotal cs = decodeAllFlush cs.flatten := by
  unfold chunksDecState decodedFold at h
  rw [decodedFold_go] at h
  unfold decodedTotal decodedFold decodeAllFlush
  rw [decodedFold_go]
  simp only at h
  simp [h]

/-- Witness for C3 (amended): the chunking `[[0x48], [0xC3, 0xA9]]` splits
the two-byte character `é` across chunks but leaves nothing pending. -/
theorem c3_amended_witness :
    decodedTotal [[0x48], [0xC3, 0xA9]] =
      decodeAllFlush (List.flatten [[0x48], [0xC3, 0xA9]]) :=
  c3_amended_no_pending [[0x48], [0xC3, 0xA9]] (by decide)

/-- CLAIM C4 (counterexample).  `[DONE]` breaks out of the whole per-chunk
segment loop: a valid content segment after the sentinel in the same chunk
is skipped (result `""`), although the same segment alone yields `"X"`. -/
theorem c4_counterexample :
    processStream [asciiBytes
      "data: [DONE]\n\ndata: \x7b\"choices\":[\x7b\"delta\":\x7b\"content\":\"X\"\x7d\x7d]\x7d\n\n"] =
      "" ∧
    processStream [asciiBytes
      "data: \x7b\"choices\":[\x7b\"delta\":\x7b\"content\":\"X\"\x7d\x7d]\x7d\n\n"] = "X" :=
  ⟨by decide, by decide⟩

/-- CLAIM C4 (amended).  The sentinel abandons the remaining segments of
the current chunk only: the read loop itself continues; a pure `[DONE]`
chunk leaves the loop state unchanged, so every data segment of every later
chunk is still processed and accumulated. -/
theorem c4_amended_break_scope :
    (∀ cs, processStream (asciiBytes "data: [DONE]\n\n" :: cs) = processStream cs) ∧
    processStream [asciiBytes "data: [DONE]\n\n",
      asciiBytes "data: \x7b\"choices\":[\x7b\"delta\":\x7b\"content\":\"X\"\x7d\x7d]\x7d\n\n"] =
      "X" := by
  constructor
  · intro cs
    have h : stepChunk initPS (asciiBytes "data: [DONE]\n\n") = initPS := by decide
    simp [processStream, List.foldl_cons, h]
  · decide

/-- CLAIM C10.  A `data: ` segment split at any interior position across
two successive reads is silently dropped: each chunk is split on `\n\n`
independently, with no carry-over buffer; delivered intact, the same
segment contributes `"X"`. -/
theorem c10_split_segment_dropped :
    (∀ k, k < seg10.data.length → 1 ≤ k →
      processStream [asciiBytes ⟨seg10.data.take k⟩,
        asciiBytes (⟨seg10.data.drop k⟩ ++ "\n\n")] = "") ∧
    processStream [asciiBytes (seg10 ++ "\n\n")] = "X" := by
  refine ⟨by decide, by decide⟩

/-- Witness for C10: the split after 10 characters (inside the JSON
payload) drops the increment. -/
theorem c10_witness :
    processStream [asciiBytes ⟨seg10.data.take 10⟩,
      asciiBytes (⟨seg10.data.drop 10⟩ ++ "\n\n")] = "" :=
  c10_split_segment_dropped.1 10 (by decide) (by decide)


theorem frameStr_data (s : String) :
    (frameStr s).data = lineChars s.data ++ ['\n', '\n'] := by
  have h1 : ("data: \x7b\"choices\":[\x7b\"delta\":\x7b\"content\":\"" : String).data
      = 'd' :: 'a' :: 't' :: 'a' :: ':' :: ' ' :: preJson := by decide
  have h2 : ("\"\x7d\x7d]\x7d\n\n" : String).data = postJson ++ ['\n', '\n'] := by decide
  simp only [frameStr, String.data_append, h1, h2, lineChars, jsonChars,
    List.cons_append, List.append_assoc]
  rfl

theorem runBytes_ascii (l : List Char) (h : ∀ c ∈ l, c.toNat ≤ 0x7F) :
    runBytes initDec (l.map Char.toNat) = (initDec, l) := by
  induction l with
  | nil => rfl
  | cons c cs ih =>
    have hc : c.toNat ≤ 0x7F := h c (by simp)
    have ih' := ih (fun x hx => h x (by simp [hx]))
    have hstep : utf8Step initDec c.toNat = (initDec, [c]) := by
      unfold utf8Step utf8StepFresh initDec
      simp [hc, Char.ofNat_toNat]
    simp only [List.map_cons, runBytes, hstep, ih']
    rfl

theorem splitNN_terminal (l : List Char) (h : '\n' ∉ l) :
    splitNN (l ++ ['\n', '\n']) = [l, []] := by
  induction l with
  | nil => rfl
  | cons c cs ih =>
    have hc : c ≠ '\n' := by intro hh; exact h (by simp [hh])
    have ih' := ih (fun hh => h (by simp [hh]))
    rw [List.cons_append, splitNN.eq_def]
    split
    · rename_i rest heq
      exact absurd (List.cons_eq_cons.mp heq).1 hc
    · rename_i x c2 cp hfalse heq
      obtain ⟨h1, h2⟩ := List.cons_eq_cons.mp heq
      subst h1; subst h2
      rw [ih']
    · rename_i heq
      simp at heq

theorem parseStrBody_safe (s rest : List Char) (hs : ∀ c ∈ s, SafeChar c) :
    parseStrBody (s ++ '"' :: rest) = some (s, rest) := by
  induction s with
  | nil => rfl
  | cons c cs ih =>
    obtain ⟨h1, h2, h3, h4⟩ := hs c (by simp)
    have ih' := ih (fun x hx => hs x (by simp [hx]))
    rw [List.cons_append, parseStrBody.eq_def]
    split
    · rename_i heq; exact absurd heq (by simp)
    · rename_i e1 e2 e3 e4 r3 heq
      exact absurd (List.cons_eq_cons.mp heq).1 h4
    · rename_i e r2 hno heq
      exact absurd (List.cons_eq_cons.mp heq).1 h4
    · rename_i c' rest' hno1 hno2 heq
      obtain ⟨hc1, hc2⟩ := List.cons_eq_cons.mp heq
      subst hc1; subst hc2
      rw [if_neg h3, if_neg h4, if_neg (by omega), ih']
      rfl

theorem dropWhile_append_last {p : Char → Bool} (xs : List Char) (x : Char)
    (hx : p x = false) :
    ∃ zs, List.dropWhile p (xs ++ [x]) = zs ++ [x] := by
  induction xs with
  | nil => exact ⟨[], by simp [List.dropWhile, hx]⟩
  | cons a as ih =>
    by_cases ha : p a
    · obtain ⟨zs, hzs⟩ := ih
      exact ⟨zs, by simp [List.dropWhile, ha, hzs]⟩
    · exact ⟨a :: as, by simp [List.dropWhile, ha]⟩

theorem trimJs_brace (rest : List Char) :
    ∃ t, trimJs ('{' :: rest) = '{' :: t := by
  obtain ⟨zs, hzs⟩ := dropWhile_append_last (p := isJsWs) rest.reverse '{' (by decide)
  refine ⟨zs.reverse, ?_⟩
  unfold trimJs
  rw [List.dropWhile_cons_of_neg (by decide), List.reverse_cons, hzs]
  simp

theorem trimJs_json_ne_done (t : List Char) :
    ¬ trimJs (jsonChars t) = "[DONE]".data := by
  intro h
  have hcons : jsonChars t =
      '{' :: ("\"choices\":[\x7b\"delta\":\x7b\"content\":\"".data ++ t ++ postJson) := rfl
  rw [hcons] at h
  obtain ⟨z, hz⟩ := trimJs_brace ("\"choices\":[\x7b\"delta\":\x7b\"content\":\"".data ++ t ++ postJson)
  rw [hz] at h
  exact absurd (List.cons_eq_cons.mp h).1 (by decide)

theorem lv9 (f : Nat) (t : List Char) (hs : ∀ c ∈ t, SafeChar c) :
    parseF (f + 1) .val ('"' :: (t ++ ['"', '}', '}', ']', '}'])) =
      some (.str ⟨t⟩, ['}', '}', ']', '}']) := by
  have hbody := parseStrBody_safe t ['}', '}', ']', '}'] hs
  conv_lhs => whnf
  rw [hbody]
  rfl

theorem lv7 (f : Nat) (t : List Char) (hs : ∀ c ∈ t, SafeChar c) :
    parseF (f + 3) .val
      ('{' :: '"' :: 'c' :: 'o' :: 'n' :: 't' :: 'e' :: 'n' :: 't' :: '"' :: ':' :: '"' ::
        (t ++ ['"', '}', '}', ']', '}'])) =
      some (.obj [("content", .str ⟨t⟩)], ['}', ']', '}']) := by
  conv_lhs => whnf
  rw [lv9 f t hs]
  rfl

theorem lv5 (f : Nat) (t : List Char) (hs : ∀ c ∈ t, SafeChar c) :
    parseF (f + 5) .val
      ('{' :: '"' :: 'd' :: 'e' :: 'l' :: 't' :: 'a' :: '"' :: ':' ::
        '{' :: '"' :: 'c' :: 'o' :: 'n' :: 't' :: 'e' :: 'n' :: 't' :: '"' :: ':' :: '"' ::
        (t ++ ['"', '}', '}', ']', '}'])) =
      some (.obj [("delta", .obj [("content", .str ⟨t⟩)])], [']', '}']) := by
  conv_lhs => whnf
  rw [lv7 f t hs]
  rfl

theorem lv3 (f : Nat) (t : List Char) (hs : ∀ c ∈ t, SafeChar c) :
    parseF (f + 7) .val
      ('[' :: '{' :: '"' :: 'd' :: 'e' :: 'l' :: 't' :: 'a' :: '"' :: ':' ::
        '{' :: '"' :: 'c' :: 'o' :: 'n' :: 't' :: 'e' :: 'n' :: 't' :: '"' :: ':' :: '"' ::
        (t ++ ['"', '}', '}', ']', '}'])) =
      some (.arr [.obj [("delta", .obj [("content", .str ⟨t⟩)])]], ['}']) := by
  conv_lhs => whnf
  rw [lv5 f t hs]
  rfl

theorem parseF_frame (g : Nat) (t : List Char) (hs : ∀ c ∈ t, SafeChar c) :
    parseF (g + 9) .val (jsonChars t) = some (frameJson t, []) := by
  conv_lhs => whnf
  rw [show (List.append (List.append
        ['[', '{', '"', 'd', 'e', 'l', 't', 'a', '"', ':', '{', '"',
         'c', 'o', 'n', 't', 'e', 'n', 't', '"', ':', '"'] t) postJson) =
      ('[' :: '{' :: '"' :: 'd' :: 'e' :: 'l' :: 't' :: 'a' :: '"' :: ':' ::
        '{' :: '"' :: 'c' :: 'o' :: 'n' :: 't' :: 'e' :: 'n' :: 't' :: '"' :: ':' :: '"' ::
        (t ++ ['"', '}', '}', ']', '}'])) from rfl]
  rw [lv3 g t hs]
  rfl

theorem parseJson_frame (t : List Char) (hs : ∀ c ∈ t, SafeChar c) :
    parseJson (jsonChars t).asString = some (frameJson t) := by
  have hp : preJson.length = 33 := by decide
  have hq : postJson.length = 5 := by decide
  have hf : (jsonChars t).length + 1 = (t.length + 30) + 9 := by
    simp [jsonChars, List.length_append, hp, hq]; omega
  conv_lhs => whnf
  rw [show ((jsonChars t).asString : String).data = jsonChars t from rfl, hf,
    parseF_frame (t.length + 30) t hs]
  rfl

theorem processLines_frame (t : List Char) (acc : List Char) (hne : t ≠ [])
    (hs : ∀ c ∈ t, SafeChar c) :
    processLines acc [lineChars t, []] = acc ++ t := by
  obtain ⟨a, t', rfl⟩ : ∃ a t', t = a :: t' := by
    cases t with
    | nil => exact absurd rfl hne
    | cons a t' => exact ⟨a, t', rfl⟩
  conv_lhs => whnf
  rcases hd : instDecidableEqList (trimJs (jsonChars (a :: t'))) "[DONE]".data with h | h
  · conv_lhs => whnf
    rw [parseJson_frame (a :: t') hs]
    rfl
  · exact absurd h (trimJs_json_ne_done (a :: t'))

theorem frame_ascii (s : String) (hs : ∀ c ∈ s.data, SafeChar c) :
    ∀ c ∈ lineChars s.data ++ ['\n', '\n'], c.toNat ≤ 0x7F := by
  have hpre : ∀ c ∈ preJson, c.toNat ≤ 0x7F := by decide
  have hpost : ∀ c ∈ postJson, c.toNat ≤ 0x7F := by decide
  intro c hc
  simp only [lineChars, jsonChars, List.mem_append, List.mem_cons] at hc
  rcases hc with ((rfl | rfl | rfl | rfl | rfl | rfl | ((h | h) | h)) | h)
  · decide
  · decide
  · decide
  · decide
  · decide
  · decide
  · exact hpre c h
  · exact (hs c h).2.1.trans (by norm_num)
  · exact hpost c h
  · simp only [List.mem_cons, List.not_mem_nil, or_false] at h
    rcases h with rfl | rfl <;> decide

theorem frame_no_newline (s : String) (hs : ∀ c ∈ s.data, SafeChar c) :
    '\n' ∉ lineChars s.data := by
  have hpre : '\n' ∉ preJson := by decide
  have hpost : '\n' ∉ postJson := by decide
  intro hc
  simp only [lineChars, jsonChars, List.mem_append, List.mem_cons] at hc
  rcases hc with h | h | h | h | h | h | ((h | h) | h)
  · exact absurd h (by decide)
  · exact absurd h (by decide)
  · exact absurd h (by decide)
  · exact absurd h (by decide)
  · exact absurd h (by decide)
  · exact absurd h (by decide)
  · exact hpre h
  · exact absurd (hs _ h).1 (by decide)
  · exact hpost h

theorem stepChunk_frame (s : String) (acc : List Char) (hne : s ≠ "")
    (hs : ∀ c ∈ s.data, SafeChar c) :
    stepChunk ⟨initDec, acc⟩ (asciiBytes (frameStr s)) = ⟨initDec, acc ++ s.data⟩ := by
  have hne' : s.data ≠ [] := fun h => hne (by
    cases s with
    | mk d => simp at h; simp [h])
  unfold stepChunk asciiBytes
  rw [frameStr_data s, runBytes_ascii _ (frame_ascii s hs)]
  show (⟨initDec, processLines acc (splitNN (lineChars s.data ++ ['\n', '\n']))⟩ : PSState) = _
  rw [splitNN_terminal _ (frame_no_newline s hs),
    processLines_frame s.data acc hne' hs]

theorem stepChunk_bad (acc : List Char) :
    stepChunk ⟨initDec, acc⟩ (asciiBytes badStr) = ⟨initDec, acc⟩ := by
  have hb : runBytes initDec (asciiBytes badStr) =
      (initDec, badStr.data) := by decide
  unfold stepChunk
  rw [hb]
  show (⟨initDec, processLines acc (splitNN badStr.data)⟩ : PSState) = _
  have hsplit : splitNN badStr.data =
      ["data: \x7bmalformed\x7d".data, []] := by decide
  rw [hsplit]
  rfl


/-- CLAIM C5.  For every pair of nonempty safe content strings, a stream of
three chunks — a well-formed content frame, a frame whose payload is
malformed JSON, and another well-formed content frame — yields exactly the
concatenation of the two valid increments: the malformed frame is skipped
(only logged) and never aborts the stream. -/
theorem c5_malformed_frame_recovery (s1 s2 : String) (h1 : SafeContent s1) (h2 : SafeContent s2) :
    processStream [asciiBytes (frameStr s1), asciiBytes badStr,
      asciiBytes (frameStr s2)] = s1 ++ s2 := by
  obtain ⟨hne1, hs1⟩ := h1
  obtain ⟨hne2, hs2⟩ := h2
  unfold processStream
  simp only [List.foldl_cons, List.foldl_nil]
  rw [show initPS = (⟨initDec, []⟩ : PSState) from rfl, stepChunk_frame s1 [] hne1 hs1]
  simp only [List.nil_append]
  rw [stepChunk_bad s1.data, stepChunk_frame s2 s1.data hne2 hs2]
  show (s1.data ++ s2.data).asString = s1 ++ s2
  rfl

/-- Witness for C5 at concrete contents "Hel" and "lo". -/
theorem c5_witness :
    processStream [asciiBytes (frameStr "Hel"), asciiBytes badStr,
      asciiBytes (frameStr "lo")] = "Hel" ++ "lo" :=
  c5_malformed_frame_recovery "Hel" "lo" ⟨by decide, by decide⟩
    ⟨by decide, by decide⟩


theorem lookupChat_setChat (l : List (String × Chat)) (k : String) (c : Chat) :
    lookupChat (setChat l k c) k = (lookupChat l k).map (fun _ => c) := by
  induction l with
  | nil => rfl
  | cons p rest ih =>
    by_cases h : p.1 = k
    · simp [setChat, lookupChat, h]
    · simp only [setChat, List.map_cons, if_neg h, lookupChat, h, if_false]
      simpa [setChat] using ih

theorem addMessage_active (st : AppState) (k : String) (ch : Chat) (r c : String)
    (hA : st.activeChatId = some k) (hL : lookupChat st.chats k = some ch) :
    addMessage st r c =
      (⟨setChat st.chats k
          ⟨ch.id,
           if ch.messages = [] ∧ r = "user"
             then jsSubstring c 30 ++ (if 30 < c.length then "..." else "")
             else ch.title,
           ch.messages ++ [⟨r, c⟩], ch.systemPrompt⟩,
        some k, st.settings⟩,
       some (if ch.messages = [] ∧ r = "user"
         then jsSubstring c 30 ++ (if 30 < c.length then "..." else "")
         else ch.title)) := by
  have hiff : ((ch.messages ++ [(⟨r, c⟩ : Message)]).length = 1 ∧ r = "user") ↔
      (ch.messages = [] ∧ r = "user") := by
    simp [List.length_append]
  unfold addMessage
  rw [hA]
  simp only [hL, hiff, hA]

theorem addMessage_inactive (st : AppState) (r c : String)
    (h : getActiveChat st = none) : addMessage st r c = (st, none) := by
  unfold getActiveChat at h
  unfold addMessage
  cases hA : st.activeChatId with
  | none => rfl
  | some k =>
    rw [hA] at h
    simp only at h
    simp only [h]

theorem toNat_ofNat_lt (n : Nat) (h : n < 0xD800) : (Char.ofNat n).toNat = n := by
  have hv : n.isValidChar := Or.inl h
  unfold Char.ofNat
  rw [dif_pos hv]
  simp only [Char.ofNatAux, Char.toNat, UInt32.toNat, BitVec.toNat_ofNatLt]

theorem digitChar_isDigit (n : Nat) : (Char.ofNat (48 + n % 10)).isDigit = true := by
  have hlt : n % 10 < 10 := Nat.mod_lt _ (by omega)
  have ht : (Char.ofNat (48 + n % 10)).toNat = 48 + n % 10 :=
    toNat_ofNat_lt _ (by omega)
  simp only [Char.isDigit, Bool.and_eq_true, decide_eq_true_eq]
  refine ⟨?_, ?_⟩
  · show (48 : Nat) ≤ (Char.ofNat (48 + n % 10)).toNat
    rw [ht]; omega
  · show (Char.ofNat (48 + n % 10)).toNat ≤ (57 : Nat)
    rw [ht]; omega

theorem natDecAux_append (f n : Nat) (acc : List Char) :
    natDecAux f n acc = natDecAux f n [] ++ acc := by
  induction f generalizing n acc with
  | zero => rfl
  | succ g ih =>
    by_cases h : n < 10
    · simp [natDecAux, h]
    · simp only [natDecAux, if_neg h]
      rw [ih (n / 10) (Char.ofNat (48 + n % 10) :: acc),
          ih (n / 10) [Char.ofNat (48 + n % 10)]]
      simp

theorem natDecAux_fuel (f g n : Nat) (acc : List Char) (hf : n ≤ f) (hg : n ≤ g) :
    natDecAux f n acc = natDecAux g n acc := by
  induction f generalizing g n acc with
  | zero =>
    interval_cases n
    cases g with
    | zero => rfl
    | succ g2 => simp [natDecAux]
  | succ f2 ih =>
    cases g with
    | zero =>
      have : n = 0 := Nat.le_zero.mp hg
      subst this
      simp [natDecAux]
    | succ g2 =>
      by_cases h : n < 10
      · simp [natDecAux, h]
      · simp only [natDecAux, if_neg h]
        exact ih g2 (n / 10) _ (by omega) (by omega)

theorem natDec_val (n : Nat) : digitsVal (natDec n).data = n := by
  induction n using Nat.strong_induction_on with
  | _ n ih =>
    by_cases h : n < 10
    · show digitsVal (natDecAux n n []) = n
      have : natDecAux n n [] = [Char.ofNat (48 + n % 10)] := by
        cases n with
        | zero => rfl
        | succ m => simp [natDecAux, h]
      rw [this]
      show (0 * 10 + ((Char.ofNat (48 + n % 10)).toNat - 48)) = n
      rw [toNat_ofNat_lt _ (by omega)]
      omega
    · show digitsVal (natDecAux n n []) = n
      have hn1 : ∃ m, n = m + 1 := ⟨n - 1, by omega⟩
      obtain ⟨m, rfl⟩ := hn1
      show digitsVal (natDecAux (m + 1) (m + 1) []) = m + 1
      rw [show natDecAux (m + 1) (m + 1) [] =
            natDecAux m ((m + 1) / 10) [Char.ofNat (48 + (m + 1) % 10)] from by
          simp [natDecAux, h]]
      rw [natDecAux_append,
          natDecAux_fuel m ((m + 1) / 10) ((m + 1) / 10) [] (by omega) (le_refl _)]
      show digitsVal ((natDec ((m + 1) / 10)).data ++ [Char.ofNat (48 + (m + 1) % 10)]) = m + 1
      unfold digitsVal
      rw [List.foldl_append]
      have ihv := ih ((m + 1) / 10) (by omega)
      unfold digitsVal at ihv
      rw [ihv]
      simp only [List.foldl_cons, List.foldl_nil]
      rw [toNat_ofNat_lt _ (by omega)]
      omega

theorem natDec_digits (n : Nat) : ∀ c ∈ (natDec n).data, c.isDigit = true := by
  suffices h : ∀ f m (acc : List Char), (∀ c ∈ acc, c.isDigit = true) →
      ∀ c ∈ natDecAux f m acc, c.isDigit = true by
    exact h n n [] (by simp)
  intro f
  induction f with
  | zero =>
    intro m acc hacc c hc
    simp only [natDecAux, List.mem_cons] at hc
    rcases hc with rfl | hc
    · exact digitChar_isDigit m
    · exact hacc c hc
  | succ g ih =>
    intro m acc hacc c hc
    by_cases h : m < 10
    · simp only [natDecAux, if_pos h, List.mem_cons] at hc
      rcases hc with rfl | hc
      · exact digitChar_isDigit m
      · exact hacc c hc
    · simp only [natDecAux, if_neg h] at hc
      refine ih (m / 10) _ ?_ c hc
      intro x hx
      rcases List.mem_cons.mp hx with rfl | hx2
      · exact digitChar_isDigit m
      · exact hacc x hx2

theorem natDecAux_ne_nil (f n : Nat) (acc : List Char) : natDecAux f n acc ≠ [] := by
  induction f generalizing n acc with
  | zero => simp [natDecAux]
  | succ g ih =>
    by_cases h : n < 10
    · simp [natDecAux, h]
    · simp only [natDecAux, if_neg h]
      exact ih _ _

theorem splitUnderscore_single (l : List Char) (h : ∀ c ∈ l, c ≠ '_') :
    splitUnderscore l = [l] := by
  induction l with
  | nil => rfl
  | cons c cs ih =>
    have hc : c ≠ '_' := h c (by simp)
    have ih' := ih (fun x hx => h x (by simp [hx]))
    rw [splitUnderscore.eq_def]
    split
    · rename_i heq; simp at heq
    · rename_i rest heq
      exact absurd (List.cons_eq_cons.mp heq).1 hc
    · rename_i c2 rest hno heq
      obtain ⟨h1, h2⟩ := List.cons_eq_cons.mp heq
      subst h1; subst h2
      rw [ih']

theorem tsOf_mkChatId (t : Nat) : tsOf (mkChatId t) = t := by
  have hdata : (mkChatId t).data = 'c' :: 'h' :: 'a' :: 't' :: '_' :: (natDec t).data := by
    show ("chat_" ++ natDec t).data = _
    rw [String.data_append]
    rfl
  have hnd : ∀ c ∈ (natDec t).data, c ≠ '_' := by
    intro c hc hh
    have hd := natDec_digits t c hc
    subst hh
    exact absurd hd (by decide)
  have h1 := splitUnderscore_single (natDec t).data hnd
  have hsplit : splitUnderscore (mkChatId t).data = [['c', 'h', 'a', 't'], (natDec t).data] := by
    rw [hdata]
    show (match splitUnderscore ('h' :: 'a' :: 't' :: '_' :: (natDec t).data) with
      | s :: ss => ('c' :: s) :: ss
      | [] => [['c']]) = _
    rw [show splitUnderscore ('h' :: 'a' :: 't' :: '_' :: (natDec t).data) =
        (match splitUnderscore ('a' :: 't' :: '_' :: (natDec t).data) with
          | s :: ss => ('h' :: s) :: ss
          | [] => [['h']]) from rfl]
    rw [show splitUnderscore ('a' :: 't' :: '_' :: (natDec t).data) =
        (match splitUnderscore ('t' :: '_' :: (natDec t).data) with
          | s :: ss => ('a' :: s) :: ss
          | [] => [['a']]) from rfl]
    rw [show splitUnderscore ('t' :: '_' :: (natDec t).data) =
        (match splitUnderscore ('_' :: (natDec t).data) with
          | s :: ss => ('t' :: s) :: ss
          | [] => [['t']]) from rfl]
    rw [show splitUnderscore ('_' :: (natDec t).data) =
        [] :: splitUnderscore (natDec t).data from rfl]
    rw [h1]
  unfold tsOf
  rw [hsplit]
  show (let ds := ((natDec t).data).takeWhile Char.isDigit
    if ds = [] then 0 else digitsVal ds) = t
  rw [List.takeWhile_eq_self_iff.mpr (natDec_digits t)]
  simp only
  rw [if_neg (show ¬(natDec t).data = [] from natDecAux_ne_nil t t [])]
  exact natDec_val t

theorem setChat_keys (l : List (String × Chat)) (k : String) (c : Chat) :
    (setChat l k c).map Prod.fst = l.map Prod.fst := by
  induction l with
  | nil => rfl
  | cons p rest ih =>
    show ((if p.1 = k then (k, c) else p) :: setChat rest k c).map Prod.fst =
      p.1 :: rest.map Prod.fst
    by_cases h : p.1 = k
    · rw [if_pos h]
      show k :: (setChat rest k c).map Prod.fst = p.1 :: rest.map Prod.fst
      rw [ih, h]
    · rw [if_neg h]
      show p.1 :: (setChat rest k c).map Prod.fst = p.1 :: rest.map Prod.fst
      rw [ih]

theorem setActiveChat_chats (st : AppState) (oid : Option String) :
    (setActiveChat st oid).chats = st.chats := by
  unfold setActiveChat
  split <;> rfl

theorem mem_keys_insertChat (l : List (String × Chat)) (k : String) (c : Chat) :
    k ∈ (insertChat l k c).map Prod.fst := by
  unfold insertChat
  split
  · rename_i h
    rw [setChat_keys]
    rcases List.any_eq_true.mp h with ⟨p, hp, he⟩
    have : p.1 = k := by simpa using he
    exact this ▸ List.mem_map_of_mem Prod.fst hp
  · simp

theorem lookupChat_isSome_iff (l : List (String × Chat)) (k : String) :
    (lookupChat l k).isSome = true ↔ k ∈ l.map Prod.fst := by
  induction l with
  | nil => simp [lookupChat]
  | cons p rest ih =>
    show (if p.1 = k then some p.2 else lookupChat rest k).isSome = true ↔ _
    by_cases hp : p.1 = k
    · simp [hp]
    · rw [if_neg hp, List.map_cons]
      simp only [List.mem_cons, ih]
      constructor
      · exact Or.inr
      · rintro (rfl | hm)
        · exact absurd rfl hp
        · exact hm

theorem newestKey_go_spec (keys : List String) (b : String) :
    ∃ k, keys.foldl (fun best k =>
        match best with
        | none => some k
        | some b2 => if tsOf b2 < tsOf k then some k else some b2) (some b) = some k ∧
      (k = b ∨ k ∈ keys) ∧ tsOf b ≤ tsOf k ∧ ∀ j ∈ keys, tsOf j ≤ tsOf k := by
  induction keys generalizing b with
  | nil => exact ⟨b, rfl, Or.inl rfl, le_refl _, by simp⟩
  | cons a rest ih =>
    by_cases h : tsOf b < tsOf a
    · obtain ⟨k, hf, hm, hb, hall⟩ := ih a
      refine ⟨k, ?_, ?_, ?_, ?_⟩
      · show List.foldl _ (if tsOf b < tsOf a then some a else some b) rest = some k
        rw [if_pos h]; exact hf
      · rcases hm with rfl | hm
        · exact Or.inr (by simp)
        · exact Or.inr (by simp [hm])
      · omega
      · intro j hj
        rcases List.mem_cons.mp hj with rfl | hj2
        · exact hb
        · exact hall j hj2
    · obtain ⟨k, hf, hm, hb, hall⟩ := ih b
      refine ⟨k, ?_, ?_, hb, ?_⟩
      · show List.foldl _ (if tsOf b < tsOf a then some a else some b) rest = some k
        rw [if_neg h]; exact hf
      · rcases hm with rfl | hm
        · exact Or.inl rfl
        · exact Or.inr (by simp [hm])
      · intro j hj
        rcases List.mem_cons.mp hj with rfl | hj2
        · omega
        · exact hall j hj2

theorem newestKey_spec (keys : List String) (h : keys ≠ []) :
    ∃ k, newestKey keys = some k ∧ k ∈ keys ∧ ∀ j ∈ keys, tsOf j ≤ tsOf k := by
  cases keys with
  | nil => exact absurd rfl h
  | cons a rest =>
    obtain ⟨k, hf, hm, hb, hall⟩ := newestKey_go_spec rest a
    refine ⟨k, hf, ?_, ?_⟩
    · rcases hm with rfl | hm
      · exact List.mem_cons_self _ _
      · exact List.mem_cons_of_mem _ hm
    · intro j hj
      rcases List.mem_cons.mp hj with rfl | hj2
      · exact hb
      · exact hall j hj2

theorem activeOk_setActiveChat (st : AppState) (oid : Option String) :
    ActiveOk (setActiveChat st oid) := by
  unfold setActiveChat
  by_cases hcond : (jsFalsyId oid || (lookupChat st.chats (oid.getD "")).isNone) = true
  · rw [if_pos hcond]
    intro hne
    have hkeys : st.chats.map Prod.fst ≠ [] := by
      intro hh
      exact hne (List.map_eq_nil_iff.mp hh)
    obtain ⟨k, hk, hmem, _⟩ := newestKey_spec _ hkeys
    exact ⟨k, by simp only [hk], hmem⟩
  · rw [if_neg hcond]
    intro hne
    have hcond2 := hcond
    simp only [Bool.or_eq_true, not_or, Bool.not_eq_true] at hcond2
    obtain ⟨hfal, hlook⟩ := hcond2
    cases oid with
    | none => simp [jsFalsyId] at hfal
    | some k0 =>
      refine ⟨k0, rfl, ?_⟩
      have : (lookupChat st.chats k0).isSome = true := by
        rw [Option.isNone_eq_false_iff] at hlook
        simpa using hlook
      exact (lookupChat_isSome_iff st.chats k0).mp this

theorem activeOk_setChat_state (st : AppState) (k : String) (c : Chat)
    (h : ActiveOk st) :
    ActiveOk ⟨setChat st.chats k c, st.activeChatId, st.settings⟩ := by
  intro hne
  have hst : st.chats ≠ [] := by
    intro hh
    exact hne (by simp [hh, setChat])
  obtain ⟨a, ha, hmem⟩ := h hst
  exact ⟨a, ha, by
    show a ∈ (setChat st.chats k c).map Prod.fst
    rw [setChat_keys]
    exact hmem⟩

theorem activeOk_createNewChat (st : AppState) (now : Nat) :
    ActiveOk (createNewChat st now).1 :=
  activeOk_setActiveChat _ _

theorem activeOk_addMessage (st : AppState) (r c : String) (h : ActiveOk st) :
    ActiveOk (addMessage st r c).1 := by
  cases hA : st.activeChatId with
  | none =>
    rw [addMessage_inactive st r c (by simp [getActiveChat, hA])]
    exact h
  | some k =>
    cases hL : lookupChat st.chats k with
    | none =>
      rw [addMessage_inactive st r c (by simp [getActiveChat, hA, hL])]
      exact h
    | some ch =>
      rw [addMessage_active st k ch r c hA hL]
      intro hne
      refine ⟨k, rfl, ?_⟩
      show k ∈ (setChat st.chats k _).map Prod.fst
      rw [setChat_keys]
      exact (lookupChat_isSome_iff st.chats k).mp (by rw [hL]; rfl)

theorem deleteMessage_none (st : AppState) (i : Nat) (h : getActiveChat st = none) :
    deleteMessage st i = st := by
  unfold getActiveChat at h
  unfold deleteMessage
  cases hA : st.activeChatId with
  | none => rfl
  | some k =>
    rw [hA] at h
    simp only at h
    simp only [h]

theorem deleteMessage_active (st : AppState) (k : String) (ch : Chat) (i : Nat)
    (hA : st.activeChatId = some k) (hL : lookupChat st.chats k = some ch) :
    deleteMessage st i =
      (if i < ch.messages.length then
        (⟨setChat st.chats k ⟨ch.id, ch.title, ch.messages.eraseIdx i, ch.systemPrompt⟩,
          some k, st.settings⟩ : AppState)
       else st) := by
  unfold deleteMessage
  rw [hA]
  simp only [hL, hA]

theorem activeOk_deleteMessage (st : AppState) (i : Nat) (h : ActiveOk st) :
    ActiveOk (deleteMessage st i) := by
  cases hA : st.activeChatId with
  | none =>
    rw [deleteMessage_none st i (by simp [getActiveChat, hA])]
    exact h
  | some k =>
    cases hL : lookupChat st.chats k with
    | none =>
      rw [deleteMessage_none st i (by simp [getActiveChat, hA, hL])]
      exact h
    | some ch =>
      rw [deleteMessage_active st k ch i hA hL]
      by_cases hi : i < ch.messages.length
      · rw [if_pos hi]
        intro hne
        refine ⟨k, rfl, ?_⟩
        show k ∈ (setChat st.chats k _).map Prod.fst
        rw [setChat_keys]
        exact (lookupChat_isSome_iff st.chats k).mp (by rw [hL]; rfl)
      · rw [if_neg hi]
        exact h

theorem updateSystemPrompt_none (st : AppState) (p : String)
    (h : getActiveChat st = none) : updateSystemPrompt st p = st := by
  unfold getActiveChat at h
  unfold updateSystemPrompt
  cases hA : st.activeChatId with
  | none => rfl
  | some k =>
    rw [hA] at h
    simp only at h
    simp only [h]

theorem updateSystemPrompt_active (st : AppState) (k : String) (ch : Chat) (p : String)
    (hA : st.activeChatId = some k) (hL : lookupChat st.chats k = some ch) :
    updateSystemPrompt st p =
      ⟨setChat st.chats k ⟨ch.id, ch.title, ch.messages, p⟩, some k, st.settings⟩ := by
  unfold updateSystemPrompt
  rw [hA]
  simp only [hL, hA]

theorem activeOk_updateSystemPrompt (st : AppState) (p : String) (h : ActiveOk st) :
    ActiveOk (updateSystemPrompt st p) := by
  cases hA : st.activeChatId with
  | none =>
    rw [updateSystemPrompt_none st p (by simp [getActiveChat, hA])]
    exact h
  | some k =>
    cases hL : lookupChat st.chats k with
    | none =>
      rw [updateSystemPrompt_none st p (by simp [getActiveChat, hA, hL])]
      exact h
    | some ch =>
      rw [updateSystemPrompt_active st k ch p hA hL]
      intro hne
      refine ⟨k, rfl, ?_⟩
      show k ∈ (setChat st.chats k _).map Prod.fst
      rw [setChat_keys]
      exact (lookupChat_isSome_iff st.chats k).mp (by rw [hL]; rfl)

theorem activeOk_updateSettings (st : AppState) (q : SettingsPatch) (h : ActiveOk st) :
    ActiveOk (updateSettings st q) := by
  intro hne
  obtain ⟨a, ha, hmem⟩ := h hne
  exact ⟨a, ha, hmem⟩

theorem activeOk_deleteChat (st : AppState) (k : String) (now : Nat) (h : ActiveOk st) :
    ActiveOk (deleteChat st k now) := by
  unfold deleteChat
  by_cases hw : st.activeChatId = some k
  · rw [if_pos hw]
    cases hn : newestKey ((st.chats.filter (fun p => p.1 ≠ k)).map Prod.fst) with
    | some k2 => exact activeOk_setActiveChat _ _
    | none => exact activeOk_createNewChat _ _
  · rw [if_neg hw]
    intro hne
    have hst : st.chats ≠ [] := by
      intro hh
      exact hne (by simp [hh])
    obtain ⟨a, ha, hmem⟩ := h hst
    refine ⟨a, ha, ?_⟩
    show a ∈ (st.chats.filter (fun p => p.1 ≠ k)).map Prod.fst
    rcases List.mem_map.mp hmem with ⟨p, hp, he⟩
    have hak : a ≠ k := by
      intro hh
      exact hw (hh ▸ ha)
    refine List.mem_map.mpr ⟨p, List.mem_filter.mpr ⟨hp, ?_⟩, he⟩
    simp [he, hak]

theorem isChatKey_ne_empty (k : String) (h : isChatKey k = true) : k ≠ "" := by
  intro he
  subst he
  exact absurd h (by decide)

theorem isChatKey_mkChatId (now : Nat) : isChatKey (mkChatId now) = true := by
  unfold isChatKey
  rw [show (mkChatId now).data = 'c' :: 'h' :: 'a' :: 't' :: '_' :: (natDec now).data from by
    show ("chat_" ++ natDec now).data = _
    rw [String.data_append]; rfl]
  show decide ((natDec now).data ≠ [] ∧ ((natDec now).data).all Char.isDigit) = true
  rw [decide_eq_true_eq]
  exact ⟨natDecAux_ne_nil _ _ _, List.all_eq_true.mpr (natDec_digits now)⟩

theorem keys_filter (st : AppState) (k : String) :
    (st.chats.filter (fun p => p.1 ≠ k)).map Prod.fst =
      (keysOf st).filter (fun j => j ≠ k) := by
  unfold keysOf
  rw [List.filter_map]
  rfl

theorem deleteChat_reselect (st : AppState) (k : String) (now : Nat)
    (hwf : WFKeys st) (hA : st.activeChatId = some k)
    (hrem : st.chats.filter (fun p => p.1 ≠ k) ≠ []) :
    ∃ k2, (deleteChat st k now).activeChatId = some k2 ∧
      k2 ∈ (keysOf st).filter (fun j => j ≠ k) ∧
      ∀ j ∈ (keysOf st).filter (fun j => j ≠ k), tsOf j ≤ tsOf k2 := by
  have hkeys : (st.chats.filter (fun p => p.1 ≠ k)).map Prod.fst ≠ [] := by
    intro hh
    exact hrem (List.map_eq_nil_iff.mp hh)
  obtain ⟨k2, hn, hmem, hmax⟩ := newestKey_spec _ hkeys
  rw [keys_filter] at hn hmem hmax
  have hk2 : isChatKey k2 = true := by
    refine hwf.2 k2 ?_
    exact List.mem_of_mem_filter hmem
  refine ⟨k2, ?_, hmem, hmax⟩
  unfold deleteChat
  rw [if_pos hA]
  rw [show newestKey ((st.chats.filter (fun p => p.1 ≠ k)).map Prod.fst) = some k2 from by
    rw [keys_filter]; exact hn]
  show (setActiveChat ⟨st.chats.filter (fun p => p.1 ≠ k), st.activeChatId, st.settings⟩
      (some k2)).activeChatId = some k2
  unfold setActiveChat
  rw [if_neg ?hcond]
  case hcond =>
    show ¬(jsFalsyId (some k2) ||
      (lookupChat (st.chats.filter (fun p => p.1 ≠ k)) k2).isNone) = true
    simp only [Bool.or_eq_true, not_or, Bool.not_eq_true]
    constructor
    · simp [jsFalsyId, isChatKey_ne_empty k2 hk2]
    · rw [Option.isNone_eq_false_iff]
      refine (lookupChat_isSome_iff _ k2).mpr ?_
      rw [keys_filter]
      exact hmem

theorem deleteChat_last (st : AppState) (k : String) (ch : Chat) (now : Nat)
    (hch : st.chats = [(k, ch)]) (hA : st.activeChatId = some k) :
    (deleteChat st k now).chats = [(mkChatId now, defaultChat now)] ∧
      (deleteChat st k now).activeChatId = some (mkChatId now) := by
  have hfil : st.chats.filter (fun p => p.1 ≠ k) = [] := by
    rw [hch]
    simp
  unfold deleteChat
  rw [if_pos hA, hfil]
  show ((createNewChat ⟨[], st.activeChatId, st.settings⟩ now).1.chats = _) ∧ _
  unfold createNewChat
  simp only
  unfold insertChat
  rw [if_neg (by simp)]
  simp only [List.nil_append]
  unfold setActiveChat
  rw [if_neg ?hc]
  case hc =>
    simp only [Bool.or_eq_true, not_or, Bool.not_eq_true]
    constructor
    · simp [jsFalsyId, isChatKey_ne_empty _ (isChatKey_mkChatId now)]
    · simp [lookupChat]
  exact ⟨rfl, rfl⟩

/-- CLAIM C6 (counterexample).  `addMessage` does not return nothing on a
non-first turn: with an active conversation already holding one turn,
appending an assistant turn still returns the (unchanged) title. -/
theorem c6_counterexample :
    (addMessage demoSt "assistant" "x").2 = some "hola" ∧
    (addMessage demoSt "assistant" "x").2 ≠ none :=
  ⟨by decide, by decide⟩

/-- CLAIM C6 (amended).  With no active conversation, `addMessage` is a
silent no-op returning nothing and leaving the store unchanged; with an
active conversation it always returns the conversation's title — newly
derived exactly when the appended turn is the first and its role is
`user`, unchanged otherwise. -/
theorem c6_amended_return_title (st : AppState) (r c : String) :
    (getActiveChat st = none → addMessage st r c = (st, none)) ∧
    (∀ ch, getActiveChat st = some ch →
      (addMessage st r c).2 =
        some (if ch.messages = [] ∧ r = "user"
          then jsSubstring c 30 ++ (if 30 < c.length then "..." else "")
          else ch.title)) := by
  refine ⟨addMessage_inactive st r c, ?_⟩
  intro ch h
  unfold getActiveChat at h
  cases hA : st.activeChatId with
  | none => rw [hA] at h; simp at h
  | some k =>
    rw [hA] at h
    simp only at h
    rw [addMessage_active st k ch r c hA h]

/-- Witness for C6 (amended): on the demo store the returned value is the
existing title. -/
theorem c6_amended_witness :
    (addMessage demoSt "assistant" "hola").2 =
      some (if demoChat.messages = [] ∧ "assistant" = "user"
        then jsSubstring "hola" 30 ++ (if 30 < "hola".length then "..." else "")
        else demoChat.title) :=
  (c6_amended_return_title demoSt "assistant" "hola").2 demoChat (by decide)

/-- CLAIM C7.  Store invariant: `createNewChat` and `setActiveChat` always
re-establish a resolvable active id; `deleteChat`, `addMessage`,
`deleteMessage`, `updateSystemPrompt` and `updateSettings` preserve it;
deleting the active conversation with others remaining reselects the
remaining id with the numerically greatest embedded timestamp; deleting
the last conversation leaves exactly one fresh default conversation,
active. -/
theorem c7_active_invariant :
    (∀ st now, ActiveOk (createNewChat st now).1) ∧
    (∀ st oid, ActiveOk (setActiveChat st oid)) ∧
    (∀ st k now, ActiveOk st → ActiveOk (deleteChat st k now)) ∧
    (∀ st r c, ActiveOk st → ActiveOk (addMessage st r c).1) ∧
    (∀ st i, ActiveOk st → ActiveOk (deleteMessage st i)) ∧
    (∀ st p, ActiveOk st → ActiveOk (updateSystemPrompt st p)) ∧
    (∀ st q, ActiveOk st → ActiveOk (updateSettings st q)) ∧
    (∀ st k now, WFKeys st → st.activeChatId = some k →
      st.chats.filter (fun p => p.1 ≠ k) ≠ [] →
      ∃ k2, (deleteChat st k now).activeChatId = some k2 ∧
        k2 ∈ (keysOf st).filter (fun j => j ≠ k) ∧
        ∀ j ∈ (keysOf st).filter (fun j => j ≠ k), tsOf j ≤ tsOf k2) ∧
    (∀ st k ch now, st.chats = [(k, ch)] → st.activeChatId = some k →
      (deleteChat st k now).chats = [(mkChatId now, defaultChat now)] ∧
      (deleteChat st k now).activeChatId = some (mkChatId now)) :=
  ⟨activeOk_createNewChat, activeOk_setActiveChat, activeOk_deleteChat,
   activeOk_addMessage, activeOk_deleteMessage, activeOk_updateSystemPrompt,
   activeOk_updateSettings, deleteChat_reselect, deleteChat_last⟩

/-- Witness for C7: deleting the active conversation of the two-chat demo
store reselects the newest remaining conversation. -/
theorem c7_witness :
    ∃ k2, (deleteChat demoSt2 (mkChatId 1) 9).activeChatId = some k2 ∧
      k2 ∈ (keysOf demoSt2).filter (fun j => j ≠ mkChatId 1) ∧
      ∀ j ∈ (keysOf demoSt2).filter (fun j => j ≠ mkChatId 1),
        tsOf j ≤ tsOf k2 :=
  c7_active_invariant.2.2.2.2.2.2.2.1 demoSt2 (mkChatId 1) 9
    ⟨by decide, by decide⟩ rfl (by decide)

/-- CLAIM C8.  When a user turn is appended as the active conversation's
first turn, the title becomes the first 30 characters plus `...` exactly
when the content is longer than 30, the content verbatim otherwise; an
append onto a non-empty conversation never changes the title. -/
theorem c8_first_user_turn (st : AppState) (k : String) (ch : Chat) (r c : String)
    (hA : st.activeChatId = some k) (hL : lookupChat st.chats k = some ch) :
    (ch.messages = [] → r = "user" →
      ∃ ch2, getActiveChat ((addMessage st r c).1) = some ch2 ∧
        ch2.title = (if 30 < c.length then jsSubstring c 30 ++ "..." else c)) ∧
    (ch.messages ≠ [] →
      ∃ ch2, getActiveChat ((addMessage st r c).1) = some ch2 ∧
        ch2.title = ch.title) := by
  rw [addMessage_active st k ch r c hA hL]
  constructor
  · intro hm hr
    refine ⟨⟨ch.id,
      (if ch.messages = [] ∧ r = "user"
        then jsSubstring c 30 ++ (if 30 < c.length then "..." else "")
        else ch.title),
      ch.messages ++ [⟨r, c⟩], ch.systemPrompt⟩, ?_, ?_⟩
    · show lookupChat (setChat st.chats k _) k = _
      rw [lookupChat_setChat, hL]
      rfl
    · show (if ch.messages = [] ∧ r = "user"
          then jsSubstring c 30 ++ (if 30 < c.length then "..." else "")
          else ch.title) = _
      rw [if_pos ⟨hm, hr⟩]
      by_cases hlen : 30 < c.length
      · rw [if_pos hlen, if_pos hlen]
      · rw [if_neg hlen, if_neg hlen, String.append_empty]
        show (⟨c.data.take 30⟩ : String) = c
        rw [List.take_of_length_le (show c.data.length ≤ 30 from Nat.le_of_not_lt hlen)]
  · intro hm
    refine ⟨⟨ch.id,
      (if ch.messages = [] ∧ r = "user"
        then jsSubstring c 30 ++ (if 30 < c.length then "..." else "")
        else ch.title),
      ch.messages ++ [⟨r, c⟩], ch.systemPrompt⟩, ?_, ?_⟩
    · show lookupChat (setChat st.chats k _) k = _
      rw [lookupChat_setChat, hL]
      rfl
    · show (if ch.messages = [] ∧ r = "user"
          then jsSubstring c 30 ++ (if 30 < c.length then "..." else "")
          else ch.title) = _
      rw [if_neg (fun hh => hm hh.1)]

/-- Witness for C8: the first user turn of a fresh conversation sets the
title to the content verbatim. -/
theorem c8_witness :
    ∃ ch2, getActiveChat ((addMessage demoSt4 "user" "hey").1) = some ch2 ∧
      ch2.title = (if 30 < ("hey" : String).length
        then jsSubstring "hey" 30 ++ "..." else "hey") :=
  (c8_first_user_turn demoSt4 (mkChatId 2) (defaultChat 2) "user" "hey"
    rfl (by decide)).1 rfl rfl

/-- CLAIM C9 (counterexample).  Two `createNewChat` calls in the same
clock millisecond produce the same id, and the second call overwrites the
first conversation: afterwards the store holds a single conversation. -/
theorem c9_counterexample :
    (createNewChat (createNewChat emptySt 7).1 7).2 = (createNewChat emptySt 7).2 ∧
    (createNewChat (createNewChat emptySt 7).1 7).1.chats.length = 1 :=
  ⟨by decide, by decide⟩

/-- CLAIM C9 (amended).  Ids are `chat_<ms>`: calls in distinct
milliseconds yield distinct ids embedding strictly increasing timestamps;
two calls in the same millisecond yield the same id and the second
overwrites the first, adding no conversation. -/
theorem c9_amended_id_monotone_overwrite :
    (∀ t1 t2 : Nat, t1 < t2 →
      mkChatId t1 ≠ mkChatId t2 ∧ tsOf (mkChatId t1) < tsOf (mkChatId t2)) ∧
    (∀ st now, (createNewChat st now).2 = mkChatId now) ∧
    (∀ st now,
      keysOf (createNewChat (createNewChat st now).1 now).1 =
        keysOf (createNewChat st now).1) := by
  refine ⟨?_, fun _ _ => rfl, ?_⟩
  · intro t1 t2 hlt
    constructor
    · intro h
      have := congrArg tsOf h
      rw [tsOf_mkChatId, tsOf_mkChatId] at this
      omega
    · rw [tsOf_mkChatId, tsOf_mkChatId]
      exact hlt
  · intro st now
    have hmem : mkChatId now ∈ keysOf (createNewChat st now).1 := by
      show mkChatId now ∈ ((setActiveChat _ _).chats).map Prod.fst
      rw [setActiveChat_chats]
      exact mem_keys_insertChat st.chats (mkChatId now) (defaultChat now)
    show keysOf (setActiveChat ⟨insertChat (createNewChat st now).1.chats
        (mkChatId now) (defaultChat now), _, _⟩ (some (mkChatId now))) = _
    unfold keysOf
    rw [setActiveChat_chats]
    show (insertChat (createNewChat st now).1.chats (mkChatId now) (defaultChat now)).map
        Prod.fst = _
    unfold insertChat
    rw [if_pos ?side]
    case side =>
      refine List.any_eq_true.mpr ?_
      unfold keysOf at hmem
      rcases List.mem_map.mp hmem with ⟨p, hp, he⟩
      exact ⟨p, hp, by simp [he]⟩
    rw [setChat_keys]

/-- Witness for C9 (amended) at timestamps 3 < 5. -/
theorem c9_amended_witness :
    mkChatId 3 ≠ mkChatId 5 ∧ tsOf (mkChatId 3) < tsOf (mkChatId 5) :=
  c9_amended_id_monotone_overwrite.1 3 5 (by decide)

end ChatBot
